import Mathlib

/-!
Verification development for the SAM benchmark price/performance tool
(`src/sam/src/BalancePrice_tool.py`).

The Python code is shallowly embedded:

* Python strings are `List Char` (`Str`).  The hardware names and category
  strings handled by the tool are ASCII, so `str.lower`, `str.split`, the
  regex class `\w` and `str.strip` are modelled by their ASCII behaviour.
* Python floats (prices, ratings, balance scores) are modelled as exact
  rationals `ℚ`; the code only divides and compares them.
* Python dicts are association lists in insertion order; dict-comprehension
  key collisions keep the last value, dict item assignment keeps the first
  position; both are modelled explicitly below.
* `None`-able values are `Option`; fallible operations return sum types.
* Recursive string scans are written with an explicit fuel argument
  (initialised with the string length) so that every definition is
  structurally recursive and evaluates inside the kernel.

Definitions follow the Python source function by function; the theorems
about the frozen claims come after the definitions.
-/

abbrev Str := List Char

/-- ASCII whitespace, the characters `str.split` / `str.strip` split on. -/
def isPyWs (c : Char) : Bool :=
  c = ' ' || c = '\t' || c = '\n' || c = '\r' || c = '\x0b' || c = '\x0c'

/-- ASCII `str.lower` on one character (codepoints 65–90 shift by 32). -/
def pyLower (c : Char) : Char :=
  if 65 ≤ c.toNat ∧ c.toNat ≤ 90 then Char.ofNat (c.toNat + 32) else c

/-- ASCII `\w` character class used by `re.sub(r"[^\w\s]", " ", name)`:
letters, digits and underscore. -/
def isWordChar (c : Char) : Bool :=
  (97 ≤ c.toNat && c.toNat ≤ 122) || (65 ≤ c.toNat && c.toNat ≤ 90) ||
    (48 ≤ c.toNat && c.toNat ≤ 57) || c = '_'

/-- Fuelled worker for `pySplit`. -/
def pySplitF : Nat → List Char → List (List Char)
  | 0, _ => []
  | _ + 1, [] => []
  | fuel + 1, c :: rest =>
    if isPyWs c then pySplitF fuel rest
    else (c :: rest.takeWhile (fun d => !isPyWs d)) ::
      pySplitF fuel (rest.dropWhile (fun d => !isPyWs d))

/-- `str.split()` with no argument: maximal runs of non-whitespace
characters, empty runs dropped. -/
def pySplit (l : List Char) : List (List Char) := pySplitF l.length l

/-- `" ".join(parts)`. -/
def joinSpace : List (List Char) → List Char
  | [] => []
  | [p] => p
  | p :: q :: ps => p ++ ' ' :: joinSpace (q :: ps)

/-- `" ".join(s.split())`: collapse internal whitespace, trim the ends. -/
def collapseWs (s : Str) : Str := joinSpace (pySplit s)

/-- `s.lower()` on a whole (ASCII) string. -/
def pyLowerS (s : Str) : Str := s.map pyLower

/-- Fuelled worker for `removeAll`. -/
def removeAllF (pat : List Char) : Nat → List Char → List Char
  | 0, l => l
  | _ + 1, [] => []
  | fuel + 1, c :: rest =>
    if pat ≠ [] ∧ pat.isPrefixOf (c :: rest) then
      removeAllF pat fuel (rest.drop (pat.length - 1))
    else
      c :: removeAllF pat fuel rest

/-- `s.replace(pat, "")` for a non-empty pattern: left-to-right,
non-overlapping removal of every occurrence of `pat`. -/
def removeAll (pat : List Char) (l : List Char) : List Char :=
  removeAllF pat l.length l

/-- Python's substring test `needle in hay`. -/
def strContains (needle : List Char) : List Char → Bool
  | [] => needle.isEmpty
  | c :: rest => needle.isPrefixOf (c :: rest) || strContains needle rest

/-- `re.sub(r"[^\w\s]", " ", s)`: every character that is neither a word
character nor whitespace becomes a space. -/
def punctToSpace (s : Str) : Str :=
  s.map (fun c => if isWordChar c || isPyWs c then c else ' ')

/-- `str.strip()`: drop leading and trailing whitespace. -/
def pyStrip (s : Str) : Str :=
  ((s.dropWhile isPyWs).reverse.dropWhile isPyWs).reverse

/-- `BenchmarkDatabase._normalize_name`:
lower-case + collapse whitespace, strip the four vendor-prefix tokens in
order (`"amd "`, `"intel "`, `"geforce "`, `"radeon "`), replace punctuation
by spaces, collapse whitespace again. -/
def normalizeName (name : Str) : Str :=
  let s1 := pyLowerS (collapseWs name)
  let s2 := removeAll ("radeon ".toList)
              (removeAll ("geforce ".toList)
                (removeAll ("intel ".toList)
                  (removeAll ("amd ".toList) s1)))
  collapseWs (punctToSpace s2)

/-- `BenchmarkDatabase._compact_name`: the normalized name with the spaces
removed (`.replace(" ", "")`). -/
def compactName (name : Str) : Str :=
  (normalizeName name).filter (fun c => c ≠ ' ')

/-- `BenchmarkDatabase._tokens_match`: token-subset test in either
direction between two already-normalized strings. -/
def tokensMatch (query candidate : Str) : Bool :=
  let qt := pySplit query
  let ct := pySplit candidate
  if qt.isEmpty || ct.isEmpty then false
  else qt.all (fun t => ct.contains t) || ct.all (fun t => qt.contains t)

/-! ### Sorting

Python's `sorted(..., key=k, reverse=True)` and `list.sort(key=k, reverse=True)`
are stable descending sorts; a stable sort is uniquely determined by the key
order, so they are modelled by stable insertion sort. -/

/-- Insert `x` after every element whose key is `≥ key x` (stability for the
element coming from earlier in the input). -/
def insertDesc {α β : Type} (key : α → β) [LinearOrder β] (x : α) : List α → List α
  | [] => [x]
  | y :: ys => if key x < key y then y :: insertDesc key x ys else x :: y :: ys

/-- Stable descending sort by `key`. -/
def sortDescBy {α β : Type} (key : α → β) [LinearOrder β] : List α → List α
  | [] => []
  | x :: xs => insertDesc key x (sortDescBy key xs)

/-- Descending chain check on the key values of consecutive elements. -/
def pairwiseDescBy {α β : Type} (key : α → β) [LinearOrder β] : List α → Bool
  | [] => true
  | [_] => true
  | a :: b :: t => decide (key b ≤ key a) && pairwiseDescBy key (b :: t)

/-! ### Benchmark records, catalogs, and the in-memory database -/

/-- Value found under a record's `"rank"` key.  The code checks
`isinstance(rank, int)`; any non-integer JSON value is `nonInt`. -/
inductive RankField
  | intVal (z : ℤ)
  | nonInt
deriving DecidableEq, Repr

/-- One benchmark record, the uniform value stored in the three catalog
dicts.  All score-like fields are optional (`dict.get` on a missing key
gives `None`); fields a given catalog never sets stay `none`. -/
structure Rec where
  rating : Option ℚ := none
  relative_performance : Option ℚ := none
  percentage : Option ℚ := none
  benchmark_score : Option ℚ := none
  rank : Option RankField := none
  outdated : Bool := false
  status : Option Str := none
deriving DecidableEq, Repr

/-- A catalog dict `name -> record`, as an association list in insertion
order with unique keys. -/
abbrev Catalog := List (Str × Rec)

/-- The loaded `BenchmarkDatabase` state.  The derived index dicts
(`cpu_gaming_index`, compact indexes, …) are recomputed on demand by
`getIndexVal` below, which reproduces exactly the contents `_build_indexes`
stores.  The diagnostic fields `last_benchmark_dir`/`last_benchmark_paths`
are not modelled. -/
structure Db where
  cpu_gaming : Catalog := []
  cpu_software : Catalog := []
  gpu : Catalog := []
  cpu_gaming_title : Option Str := none
  cpu_software_title : Option Str := none
  gpu_title : Option Str := none
  loaded : Bool := false
deriving DecidableEq, Repr

/-- `.get(q)` on the dict comprehension `{f(name): name for name in keys}`:
a later key with the same image overwrites an earlier one, so the *last*
matching key in iteration order wins. -/
def getIndexVal (f : Str → Str) (cat : Catalog) (q : Str) : Option Str :=
  (cat.map Prod.fst).reverse.find? (fun n => decide (f n = q))

/-- `.get(k)` on a catalog dict (keys are unique, first match). -/
def catGet (cat : Catalog) (k : Str) : Option Rec :=
  (cat.find? (fun p => decide (p.1 = k))).map Prod.snd

/-- Python truthiness of an optional string (`if exact_name:`):
`None` and `""` are falsy. -/
def truthyStr : Option Str → Option Str
  | some [] => none
  | none => none
  | some s => some s

/-- The linear scan of `lookup_cpu_gaming` / `lookup_cpu_software` /
`lookup_gpu` (lines 182-187 and the two copies): each record is tested
first for the token-subset match, then for the compact-substring fallback;
the first record passing either test is returned. -/
def scanLookup (nq cq : Str) : Catalog → Option Rec
  | [] => none
  | (name, data) :: rest =>
    if tokensMatch nq (normalizeName name) then some data
    else if cq ≠ [] ∧ strContains cq (compactName name) then some data
    else scanLookup nq cq rest

/-- Common body of the three lookup methods: normalized-index hit, else
compact-index hit, else the linear scan.  A hit in an index returns
`dict.get` of the stored name even when that get itself misses. -/
def lookupIn (cat : Catalog) (query : Str) : Option Rec :=
  let nq := normalizeName query
  let cq := compactName query
  match truthyStr (getIndexVal normalizeName cat nq) with
  | some n => catGet cat n
  | none =>
    match truthyStr (getIndexVal compactName cat cq) with
    | some n => catGet cat n
    | none => scanLookup nq cq cat

/-- `BenchmarkDatabase.lookup_cpu_gaming`. -/
def lookupCpuGaming (db : Db) (q : Str) : Option Rec := lookupIn db.cpu_gaming q

/-- `BenchmarkDatabase.lookup_cpu_software`. -/
def lookupCpuSoftware (db : Db) (q : Str) : Option Rec := lookupIn db.cpu_software q

/-- `BenchmarkDatabase.lookup_gpu`. -/
def lookupGpu (db : Db) (q : Str) : Option Rec := lookupIn db.gpu q

/-! ### `lookup_benchmark` -/

/-- `x or default` for an optional string under Python truthiness
(used for the benchmark titles). -/
def orDefault (o : Option Str) (d : Str) : Str :=
  match o with
  | some t => if t = [] then d else t
  | none => d

def cpuKeywords : List Str :=
  ["ryzen".toList, "core i".toList, "xeon".toList, "threadripper".toList, "athlon".toList]

def gpuKeywords : List Str :=
  ["rtx".toList, "gtx".toList, "radeon".toList, "geforce".toList, "arc".toList,
    "ti".toList, "rx".toList]

/-- Category auto-detection of `lookup_benchmark` when `category` is empty. -/
def autoCategory (part : Str) : Str :=
  let pl := pyLowerS part
  if cpuKeywords.any (fun k => strContains k pl) then "cpu".toList
  else if gpuKeywords.any (fun k => strContains k pl) then "gpu".toList
  else "cpu".toList

inductive LBErr
  | emptyDb
  | unknownCategory (category : Str)
  | notFound (part : Str)
  | noScore (part : Str)
deriving DecidableEq, Repr

/-- The success payload of `lookup_benchmark`. -/
structure LBOk where
  score : ℚ
  relative_score : Option ℚ
  benchmark_title : Str
  benchmark_rank : Option ℤ
  category : Str
  benchmark_type : Str
  details : Rec
deriving DecidableEq, Repr

inductive LBRes
  | ok (r : LBOk)
  | err (e : LBErr)
deriving DecidableEq, Repr

/-- `lookup_benchmark(part, category, benchmark_type)` on a database that has
already gone through its load step (the lazy load-on-first-call block at the
top of the Python function is modelled separately by `loadBenchmarks`).
Note the two different category comparisons of the source: catalog dispatch
uses `category.lower()`, score extraction uses `category == "cpu"` exactly. -/
def lookupBenchmark (db : Db) (part category0 benchmarkType : Str) : LBRes :=
  if db.cpu_gaming = [] ∧ db.cpu_software = [] ∧ db.gpu = [] then .err .emptyDb
  else
    let category := if category0 = [] then autoCategory part else category0
    let dispatched : Option (Option Rec × Str) :=
      if pyLowerS category = "cpu".toList then
        if pyLowerS benchmarkType = "software".toList then
          some (lookupIn db.cpu_software part, "software".toList)
        else
          some (lookupIn db.cpu_gaming part, "gaming".toList)
      else if pyLowerS category = "gpu".toList then
        some (lookupIn db.gpu part, "gaming".toList)
      else none
    match dispatched with
    | none => .err (.unknownCategory category)
    | some (none, btName) =>
      let _ := btName
      .err (.notFound part)
    | some (some data, btName) =>
      let sct : Option ℚ × Option ℚ × Str :=
        if category = "cpu".toList then
          if pyLowerS benchmarkType = "software".toList then
            (data.rating, data.percentage,
              orDefault db.cpu_software_title "Processor Software Benchmark".toList)
          else
            (data.rating, data.relative_performance,
              orDefault db.cpu_gaming_title "Processor Gaming Benchmark".toList)
        else
          (data.benchmark_score, data.relative_performance,
            orDefault db.gpu_title "GPU Benchmark Rankings".toList)
      let rank : Option ℤ :=
        match data.rank with
        | some (.intVal z) => some z
        | _ => none
      match sct.1 with
      | none => .err (.noScore part)
      | some sc =>
        .ok { score := sc, relative_score := sct.2.1, benchmark_title := sct.2.2,
              benchmark_rank := rank, category := category,
              benchmark_type := btName, details := data }

/-! ### `compute_balance` -/

/-- The value found under an input entry's `"price"` key. -/
inductive PriceInput
  | missing
  | nonNumeric
  | num (q : ℚ)
deriving DecidableEq, Repr

/-- One element of the `parts` input list: `entry.get("part")` and
`entry.get("price")`. -/
structure Entry where
  part : Option Str
  price : PriceInput
deriving DecidableEq, Repr

inductive BErr
  | invalidPrice (p : PriceInput)
  | noBenchmark (e : LBErr)
  | invalidRank (r : Option ℤ)
deriving DecidableEq, Repr

/-- One result dict of `compute_balance`.  A `none` field models both an
absent key and a key holding `None` (no modelled observation separates
them).  `rank` is the dense output rank attached after sorting; it is
distinct from `benchmark_rank`. -/
structure BRes where
  part : Str
  price : PriceInput
  benchmark : Option ℚ
  relative_performance : Option ℚ
  balance_score : Option ℚ
  category : Option Str
  benchmark_type : Option Str
  benchmark_title : Option Str
  benchmark_rank : Option ℤ
  error : Option BErr
  rank : Option Nat
deriving DecidableEq, Repr

/-- `float(x) if x else None`: a zero score is turned into `None` by
Python truthiness. -/
def truthyQ : Option ℚ → Option ℚ
  | some q => if q = 0 then none else some q
  | none => none

/-- The error-tagged result appended for an entry whose price is missing,
non-numeric or `<= 0` (lines 347-355). -/
def invalidPriceRes (name : Str) (p : PriceInput) : BRes :=
  { part := name, price := p, benchmark := none, relative_performance := none,
    balance_score := none, category := none, benchmark_type := none,
    benchmark_title := none, benchmark_rank := none,
    error := some (.invalidPrice p), rank := none }

/-- The error-tagged result appended when `lookup_benchmark` fails
(lines 362-370); the error dict has no `"category"` key, so `.get` is
`None`. -/
def noBenchmarkRes (name : Str) (p : ℚ) (m : LBErr) : BRes :=
  { part := name, price := .num p, benchmark := none,
    relative_performance := none, balance_score := none, category := none,
    benchmark_type := none, benchmark_title := none, benchmark_rank := none,
    error := some (.noBenchmark m), rank := none }

/-- The per-entry phase of `compute_balance` (loop body, lines 337-403).
Returns `none` when the entry is skipped outright
(`if not part_name: continue`). -/
def processEntry (db : Db) (benchmarkType : Str) (e : Entry) : Option BRes :=
  match truthyStr e.part with
  | none => none
  | some name =>
    match e.price with
    | .num p =>
      if p ≤ 0 then some (invalidPriceRes name (.num p))
      else
        match lookupBenchmark db name [] benchmarkType with
        | .err m => some (noBenchmarkRes name p m)
        | .ok r =>
          let be : Option ℚ × Option BErr :=
            match r.benchmark_rank with
            | some z =>
              if z ≤ 0 then (none, some (.invalidRank (some z)))
              else if p ≤ 0 then (none, some (.invalidPrice (.num p)))
              else (some ((z : ℚ) / p), none)
            | none => (none, some (.invalidRank none))
          some { part := name, price := .num p,
                 benchmark := if r.score ≤ 0 then none else some r.score,
                 relative_performance := truthyQ r.relative_score,
                 balance_score := truthyQ be.1,
                 category := some r.category,
                 benchmark_type := some benchmarkType,
                 benchmark_title := some r.benchmark_title,
                 benchmark_rank := r.benchmark_rank,
                 error := be.2, rank := none }
    | other => some (invalidPriceRes name other)

/-- Sort key of the valid results: `lambda r: r["balance_score"]`
(every sorted element has a `some` score; `getD` only gives totality). -/
def balKey (r : BRes) : ℚ := r.balance_score.getD 0

/-- `for i, r in enumerate(valid_results, start=1): r["rank"] = i`. -/
def assignRanks : Nat → List BRes → List BRes
  | _, [] => []
  | i, r :: rs => { r with rank := some i } :: assignRanks (i + 1) rs

structure CBOk where
  valid_count : Nat
  invalid_count : Nat
  benchmark_type : Str
  evaluated : List BRes
deriving DecidableEq, Repr

inductive CBRes
  | ok (o : CBOk)
  | errMissingParts
deriving DecidableEq, Repr

/-- `compute_balance(parts, benchmark_type)` on a post-load database
(the lazy load block is modelled separately by `loadBenchmarks`). -/
def computeBalance (db : Db) (parts : List Entry) (benchmarkType : Str) : CBRes :=
  if parts = [] then .errMissingParts
  else
    let results := parts.filterMap (processEntry db benchmarkType)
    let valid := results.filter (fun r => r.balance_score.isSome)
    let invalid := results.filter (fun r => r.balance_score.isNone)
    let sortedValid := sortDescBy balKey valid
    let ranked := assignRanks 1 sortedValid
    .ok { valid_count := valid.length, invalid_count := invalid.length,
          benchmark_type := benchmarkType, evaluated := ranked ++ invalid }

/-! ### `get_top_performers` -/

/-- `isinstance(data.get("rank"), int)`. -/
def hasIntRank (p : Str × Rec) : Bool :=
  match p.2.rank with
  | some (.intVal _) => true
  | _ => false

/-- Sort key `lambda x: x[1].get("rank", -1)` (only applied to records that
pass `hasIntRank`, where the `-1` default is unreachable). -/
def rankKeyZ (p : Str × Rec) : ℤ :=
  match p.2.rank with
  | some (.intVal z) => z
  | _ => -1

/-- Python list slicing `l[:limit]` for an `int` limit: a negative limit
drops `|limit|` elements from the end. -/
def pySliceTo {α : Type} (limit : ℤ) (l : List α) : List α :=
  if limit < 0 then l.take (l.length - (-limit).toNat) else l.take limit.toNat

/-- `a or b` on two optional numbers under Python truthiness
(`data.get("relative_performance") or data.get("percentage")`). -/
def orTruthy (a b : Option ℚ) : Option ℚ :=
  match a with
  | some q => if q = 0 then b else some q
  | none => b

structure TItem where
  name : Str
  score : Option ℚ
  relative_performance : Option ℚ
  rank : Option RankField
deriving DecidableEq, Repr

inductive TRes
  | ok (title : Str) (top : List TItem)
  | err (category : Str)
deriving DecidableEq, Repr

/-- `get_top_performers(category, benchmark_type, limit)` on a post-load
database. -/
def getTopPerformers (db : Db) (category benchmarkType : Str) (limit : ℤ) : TRes :=
  if pyLowerS category = "cpu".toList then
    let st : Catalog × Str :=
      if pyLowerS benchmarkType = "software".toList then
        (db.cpu_software, orDefault db.cpu_software_title "Processor Software Benchmark".toList)
      else
        (db.cpu_gaming, orDefault db.cpu_gaming_title "Processor Gaming Benchmark".toList)
    let sortedItems := pySliceTo limit (sortDescBy rankKeyZ (st.1.filter hasIntRank))
    .ok st.2 (sortedItems.map (fun p =>
      { name := p.1, score := p.2.rating,
        relative_performance := orTruthy p.2.relative_performance p.2.percentage,
        rank := p.2.rank }))
  else if pyLowerS category = "gpu".toList then
    let sortedItems := pySliceTo limit (sortDescBy rankKeyZ (db.gpu.filter hasIntRank))
    .ok (orDefault db.gpu_title "GPU Benchmark Rankings".toList)
      (sortedItems.map (fun p =>
        { name := p.1, score := p.2.benchmark_score,
          relative_performance := p.2.relative_performance,
          rank := p.2.rank }))
  else .err category

/-! ### `select_best_part` -/

/-- One element of the `prices` input list. -/
structure PItem where
  part : Option Str
  price : PriceInput
deriving DecidableEq, Repr

/-- `(item.get("part") or "").strip()`. -/
def pitemKey (it : PItem) : Str :=
  pyStrip (match it.part with | some s => s | none => [])

/-- Look a key up in the price-map association list. -/
def mapGet (m : List (Str × ℚ)) (k : Str) : Option ℚ :=
  (m.find? (fun p => decide (p.1 = k))).map Prod.snd

/-- `if existing is None or price < existing: price_map[name] = float(price)`:
dict assignment keeps the original key position on overwrite. -/
def updateMin (m : List (Str × ℚ)) (k : Str) (v : ℚ) : List (Str × ℚ) :=
  match mapGet m k with
  | none => m ++ [(k, v)]
  | some e => if v < e then m.map (fun q => if q.1 = k then (k, v) else q) else m

/-- The price-map building loop of `select_best_part` (lines 523-531). -/
def buildPriceMap (prices : List PItem) : List (Str × ℚ) :=
  prices.foldl (fun m it =>
    match it.price with
    | .num v => if pitemKey it = [] then m else updateMin m (pitemKey it) v
    | _ => m) []

/-- `min_price is not None and price < min_price`. -/
def belowMin (minP : Option ℚ) (price : ℚ) : Bool :=
  match minP with
  | some m => decide (price < m)
  | none => false

/-- `max_price is not None and price > max_price`. -/
def aboveMax (maxP : Option ℚ) (price : ℚ) : Bool :=
  match maxP with
  | some m => decide (m < price)
  | none => false

/-- The selection loop over the rank-descending list (lines 555-572). -/
def selectScan (pm : List (Str × ℚ)) (minP maxP : Option ℚ) :
    List (Str × Rec) → Option (Str × ℚ × Rec)
  | [] => none
  | (name, data) :: rest =>
    match mapGet pm name with
    | none => selectScan pm minP maxP rest
    | some price =>
      if belowMin minP price then selectScan pm minP maxP rest
      else if aboveMax maxP price then selectScan pm minP maxP rest
      else some (name, price, data)

inductive SErr
  | missingPrices
  | noValidPrices
  | unknownCategory (category : Str)
  | notFound
deriving DecidableEq, Repr

structure SOk where
  part : Str
  price : ℚ
  benchmark_title : Str
  benchmark_rank : Option RankField
  category : Str
  benchmark_type : Str
deriving DecidableEq, Repr

inductive SRes
  | ok (r : SOk)
  | err (e : SErr)
deriving DecidableEq, Repr

/-- The catalog/title dispatch shared by the claim statement and the
implementation (lines 536-547). -/
def targetSrc (db : Db) (category benchmarkType : Str) : Option (Catalog × Str) :=
  if pyLowerS category = "cpu".toList then
    if pyLowerS benchmarkType = "software".toList then
      some (db.cpu_software, orDefault db.cpu_software_title "Processor Software Benchmark".toList)
    else
      some (db.cpu_gaming, orDefault db.cpu_gaming_title "Processor Gaming Benchmark".toList)
  else if pyLowerS category = "gpu".toList then
    some (db.gpu, orDefault db.gpu_title "GPU Benchmark Rankings".toList)
  else none

/-- `select_best_part(category, benchmark_type, min_price, max_price, prices)`
on a post-load database.  A `None` prices argument and an empty list both
take the `if not prices` branch, so the argument is a plain list. -/
def selectBestPart (db : Db) (category benchmarkType : Str)
    (minP maxP : Option ℚ) (prices : List PItem) : SRes :=
  if prices = [] then .err .missingPrices
  else
    let pm := buildPriceMap prices
    if pm = [] then .err .noValidPrices
    else
      match targetSrc db category benchmarkType with
      | none => .err (.unknownCategory category)
      | some st =>
        match selectScan pm minP maxP (sortDescBy rankKeyZ (st.1.filter hasIntRank)) with
        | some (name, price, data) =>
          .ok { part := name, price := price, benchmark_title := st.2,
                benchmark_rank := data.rank, category := category,
                benchmark_type := benchmarkType }
        | none => .err .notFound

/-! ### The loader (`load_benchmarks`)

The three benchmark files are abstracted as already field-mapped record
lists: the per-shape JSON field extraction (`cpu.get("rating")`, …) is not
itself under test, while the name handling (`(x.get("name") or "").strip()`,
skip blank, dict upsert), the error control flow and the `_loaded` flag
are modelled faithfully. -/

/-- One raw benchmark list entry: its `"name"` value and the record built
from its remaining fields. -/
structure RawPart where
  name : Option Str
  record : Rec
deriving DecidableEq, Repr

/-- One parsed benchmark file: top-level title field and the record list. -/
structure RawFile where
  title : Option Str
  items : List RawPart
deriving DecidableEq, Repr

/-- Outcome of opening and `json.load`-ing one benchmark file. -/
inductive FileRead
  | parseError
  | parsed (f : RawFile)
deriving DecidableEq, Repr

/-- The resolved benchmark directory: each file is absent (`none`),
malformed, or parsed. -/
structure BenchDir where
  cpu1 : Option FileRead
  cpu2 : Option FileRead
  gpu : Option FileRead
deriving DecidableEq, Repr

/-- The filesystem environment: `_resolve_benchmark_dir`'s outcome. -/
structure LoadEnv where
  resolved : Option BenchDir
deriving DecidableEq, Repr

/-- `self.cpu_gaming[name] = {...}`: dict upsert keeping the original key
position. -/
def dictInsert (cat : Catalog) (k : Str) (v : Rec) : Catalog :=
  if cat.any (fun p => decide (p.1 = k)) then
    cat.map (fun p => if p.1 = k then (k, v) else p)
  else cat ++ [(k, v)]

/-- The per-file record loop: strip each name, skip blanks, upsert. -/
def insertRawParts (cat : Catalog) (items : List RawPart) : Catalog :=
  items.foldl (fun c it =>
    let name := pyStrip (match it.name with | some s => s | none => [])
    if name = [] then c else dictInsert c name it.record) cat

/-- Result of one `load_benchmarks` call: the database state afterwards,
whether the call raised, and how many benchmark files were opened. -/
structure LoadOut where
  state : Db
  raised : Bool
  fileReads : Nat
deriving DecidableEq, Repr

/-- Record-merge of a parsed `cpu1.json` into the state
(title assignment plus the record loop). -/
def applyCpu1 (st : Db) : Option FileRead → Db
  | some (.parsed f) =>
    { st with cpu_gaming_title := f.title,
              cpu_gaming := insertRawParts st.cpu_gaming f.items }
  | _ => st

/-- Record-merge of a parsed `cpu2.json` into the state. -/
def applyCpu2 (st : Db) : Option FileRead → Db
  | some (.parsed f) =>
    { st with cpu_software_title := f.title,
              cpu_software := insertRawParts st.cpu_software f.items }
  | _ => st

/-- Record-merge of a parsed `gpu.json` into the state; the title default
is applied at load time (`data.get("benchmark_title") or "GPU Benchmark
Rankings"`). -/
def applyGpu (st : Db) : Option FileRead → Db
  | some (.parsed f) =>
    { st with gpu_title := some (orDefault f.title "GPU Benchmark Rankings".toList),
              gpu := insertRawParts st.gpu f.items }
  | _ => st

/-- Number of file opens a benchmark file contributes when it is reached:
an absent file is never opened, a present one is opened once. -/
def readCount : Option FileRead → Nat
  | none => 0
  | some _ => 1

/-- The body of `load_benchmarks` once a directory is resolved: the three
files are processed in order (cpu1, cpu2, gpu); the first malformed file
raises immediately, keeping every mutation made so far and leaving
`_loaded` false; only the fully successful path sets `_loaded = True`. -/
def loadResolved (st : Db) (c1 c2 c3 : Option FileRead) : LoadOut :=
  if c1 = some .parseError then
    { state := st, raised := true, fileReads := 1 }
  else if c2 = some .parseError then
    { state := applyCpu1 st c1, raised := true, fileReads := readCount c1 + 1 }
  else if c3 = some .parseError then
    { state := applyCpu2 (applyCpu1 st c1) c2, raised := true,
      fileReads := readCount c1 + readCount c2 + 1 }
  else
    { state := { applyGpu (applyCpu2 (applyCpu1 st c1) c2) c3 with loaded := true },
      raised := false,
      fileReads := readCount c1 + readCount c2 + readCount c3 }

/-- `load_benchmarks`: no-op when `_loaded`; a not-found directory marks
`_loaded` and returns; otherwise the three files are loaded in order. -/
def loadBenchmarks (env : LoadEnv) (st : Db) : LoadOut :=
  if st.loaded then { state := st, raised := false, fileReads := 0 }
  else
    match env.resolved with
    | none => { state := { st with loaded := true }, raised := false, fileReads := 0 }
    | some dir => loadResolved st dir.cpu1 dir.cpu2 dir.gpu

/-! ### Claim-side (specification) definitions -/

/-- Does one of the four vendor-prefix tokens occur in a string?  Used to
state for which inputs normalization is idempotent. -/
def hasVendorToken (s : Str) : Bool :=
  strContains ("amd ".toList) s || strContains ("intel ".toList) s ||
    strContains ("geforce ".toList) s || strContains ("radeon ".toList) s

/-- A valid price observation: non-empty stripped name and numeric price. -/
def validObs (it : PItem) : Option (Str × ℚ) :=
  match it.price with
  | .num v => if pitemKey it = [] then none else some (pitemKey it, v)
  | _ => none

/-- Minimum of a list of rationals (`none` when empty). -/
def minQ? : List ℚ → Option ℚ
  | [] => none
  | v :: vs =>
    match minQ? vs with
    | none => some v
    | some w => some (min v w)

/-- The lowest price observed for `name` among the valid observations. -/
def lowestObs (prices : List PItem) (name : Str) : Option ℚ :=
  minQ? (((prices.filterMap validObs).filter (fun p => decide (p.1 = name))).map Prod.snd)

/-- `min_price is None or min_price ≤ v`. -/
def minOk (minP : Option ℚ) (v : ℚ) : Bool :=
  match minP with
  | some m => decide (m ≤ v)
  | none => true

/-- `max_price is None or v ≤ max_price`. -/
def maxOk (maxP : Option ℚ) (v : ℚ) : Bool :=
  match maxP with
  | some m => decide (v ≤ m)
  | none => true

/-- Is an (optional) lowest observed price inside the inclusive
`[min_price, max_price]` window? -/
def inPriceRange (p : Option ℚ) (minP maxP : Option ℚ) : Bool :=
  match p with
  | none => false
  | some v => minOk minP v && maxOk maxP v

/-- Claim C1's description of `select_best_part`: build the lowest-observed
price per part, error when no valid observation exists, then take the first
integer-ranked record in rank-descending order whose lowest observed price
lies inside the window; not-found error otherwise. -/
def selectBestSpec (db : Db) (category benchmarkType : Str)
    (minP maxP : Option ℚ) (prices : List PItem) : SRes :=
  if prices.filterMap validObs = [] then .err .noValidPrices
  else
    match targetSrc db category benchmarkType with
    | none => .err (.unknownCategory category)
    | some st =>
      match (sortDescBy rankKeyZ (st.1.filter hasIntRank)).find?
          (fun p => inPriceRange (lowestObs prices p.1) minP maxP) with
      | some p =>
        .ok { part := p.1, price := (lowestObs prices p.1).getD 0,
              benchmark_title := st.2, benchmark_rank := p.2.rank,
              category := category, benchmark_type := benchmarkType }
      | none => .err .notFound

/-- Claim C4's amended description of the lookup: the two index strategies
in order, then a single scan in catalog order returning the first record
that passes the token-subset test or the compact-substring fallback. -/
def lookupSpec (cat : Catalog) (query : Str) : Option Rec :=
  let nq := normalizeName query
  let cq := compactName query
  match truthyStr (getIndexVal normalizeName cat nq) with
  | some n => catGet cat n
  | none =>
    match truthyStr (getIndexVal compactName cat cq) with
    | some n => catGet cat n
    | none =>
      (cat.find? (fun p =>
        tokensMatch nq (normalizeName p.1) ||
          (decide (cq ≠ []) && strContains cq (compactName p.1)))).map Prod.snd

/-- Is an input entry's price value acceptable to `compute_balance`
(`isinstance(price, (int, float)) and price > 0`)? -/
def priceOkB : PriceInput → Bool
  | .num q => decide (¬ q ≤ 0)
  | _ => false

/-- `{r with rank := none}`: forget the dense output rank, for comparing
result records across the sorting step. -/
def stripRank (r : BRes) : BRes := { r with rank := none }

/-- Was the entry successfully scored? -/
def scoredPred (r : BRes) : Bool := r.balance_score.isSome

/-- Claim C2's description of `compute_balance`'s ordering behaviour:
the evaluated list is the scored block followed by the unscored block;
the scored block is a permutation of the scored results, sorted by balance
score descending, stable (each balance-score class keeps its input order),
and carries dense ranks 1..N; the unscored block is exactly the unscored
results in input order with no rank. -/
def rankingSpec (db : Db) (parts : List Entry) (benchmarkType : Str) : Prop :=
  ∃ o : CBOk, computeBalance db parts benchmarkType = .ok o ∧
    (o.evaluated = o.evaluated.filter scoredPred
        ++ o.evaluated.filter (fun r => !scoredPred r)) ∧
    ((o.evaluated.filter scoredPred).map stripRank).Perm
        ((parts.filterMap (processEntry db benchmarkType)).filter scoredPred) ∧
    pairwiseDescBy balKey (o.evaluated.filter scoredPred) = true ∧
    (∀ q : ℚ, ((o.evaluated.filter scoredPred).filter
          (fun r => decide (r.balance_score = some q))).map stripRank
        = (parts.filterMap (processEntry db benchmarkType)).filter
            (fun r => decide (r.balance_score = some q))) ∧
    (o.evaluated.filter scoredPred).map (fun r => r.rank)
        = (List.range (o.evaluated.filter scoredPred).length).map (fun i => some (i + 1)) ∧
    o.evaluated.filter (fun r => !scoredPred r)
        = (parts.filterMap (processEntry db benchmarkType)).filter (fun r => !scoredPred r) ∧
    (∀ r ∈ o.evaluated.filter (fun r => !scoredPred r), r.rank = none)

/-- Mirror of `rankKeyZ` on an output item of `get_top_performers`. -/
def titemRank (it : TItem) : ℤ :=
  match it.rank with
  | some (.intVal z) => z
  | _ => -1

/-! ### Concrete data used by the claim instances -/

/-- A record holding only an integer rank. -/
def recRank (z : ℤ) : Rec := { rank := some (.intVal z) }

/-- A record holding an integer rank and a rating. -/
def recRankRating (z : ℤ) (q : ℚ) : Rec := { rating := some q, rank := some (.intVal z) }

/-- A record in compact-substring relation with the query `"pentium g"`,
followed by a record in token-subset relation with it. -/
def cat4demo : Catalog :=
  [("xpentiumgx".toList, recRank 1), ("pentium g extreme".toList, recRank 2)]

/-- A catalog without normalized-name collisions. -/
def cat5good : Catalog :=
  [("ryzen 5".toList, recRank 1), ("core i5".toList, recRank 2)]

/-- Two distinct stored names with the same normalized form `"ryzen 5"`. -/
def cat5bad : Catalog :=
  [("ryzen 5".toList, recRank 1), ("ryzen:5".toList, recRank 2)]

/-- A small loaded database with two CPU-gaming records. -/
def dbDemo : Db :=
  { cpu_gaming := [("alpha one".toList, recRankRating 10 50),
                   ("beta two".toList, recRankRating 5 60)] }

/-- Environment whose resolved directory holds a malformed `cpu1.json`. -/
def envBad : LoadEnv :=
  { resolved := some { cpu1 := some .parseError, cpu2 := none, gpu := none } }

/-- A well-formed benchmark file with one blank-padded name. -/
def rawFileGood : RawFile :=
  { title := some "T".toList,
    items := [{ name := some " alpha one ".toList, record := recRank 3 }] }

/-- Environment with one well-formed `cpu1.json`. -/
def envGood : LoadEnv :=
  { resolved := some { cpu1 := some (.parsed rawFileGood), cpu2 := none, gpu := none } }

/-- A fresh, never-loaded database state. -/
def db0 : Db := {}

example : normalizeName "AMD Ryzen 7 7800X3D".toList = "ryzen 7 7800x3d".toList := by decide
example : compactName "Ryzen 7 7800X3D".toList = "ryzen77800x3d".toList := by decide
example : normalizeName "amd.x".toList = "amd x".toList := by decide
example : normalizeName (normalizeName "amd.x".toList) = "x".toList := by decide
example : tokensMatch "pentium g".toList "pentium g extreme".toList = true := by decide
example : tokensMatch "pentium g".toList "xpentiumgx".toList = false := by decide
example : strContains "pentiumg".toList "xpentiumgx".toList = true := by decide

/-! ### Lemmas about the string primitives -/

theorem pySplitF_nil : ∀ n, pySplitF n [] = []
  | 0 => rfl
  | _ + 1 => rfl

theorem pySplitF_congr : ∀ n m (l : List Char), l.length ≤ n → l.length ≤ m →
    pySplitF n l = pySplitF m l
  | 0, m, l, hn, _ => by
    have : l = [] := List.length_eq_zero.mp (Nat.le_zero.mp hn)
    subst this; rw [pySplitF_nil, pySplitF_nil]
  | n + 1, m, [], _, _ => by rw [pySplitF_nil, pySplitF_nil]
  | n + 1, 0, c :: rest, hn, hm => by simp at hm
  | n + 1, m + 1, c :: rest, hn, hm => by
    simp only [List.length_cons, Nat.add_le_add_iff_right] at hn hm
    simp only [pySplitF]
    by_cases hws : isPyWs c
    · simp only [hws, if_true]
      exact pySplitF_congr n m rest hn hm
    · simp only [hws, Bool.false_eq_true, if_false]
      have hd : (rest.dropWhile (fun d => !isPyWs d)).length ≤ rest.length :=
        (List.dropWhile_sublist _).length_le
      rw [pySplitF_congr n m _ (Nat.le_trans hd hn) (Nat.le_trans hd hm)]

theorem pySplit_cons_ws {c : Char} {rest : List Char} (h : isPyWs c = true) :
    pySplit (c :: rest) = pySplit rest := by
  simp only [pySplit, List.length_cons, pySplitF, h, if_true]

theorem pySplit_cons_run {c : Char} {rest : List Char} (h : isPyWs c = false) :
    pySplit (c :: rest) =
      (c :: rest.takeWhile (fun d => !isPyWs d)) ::
        pySplit (rest.dropWhile (fun d => !isPyWs d)) := by
  simp only [pySplit, List.length_cons, pySplitF, h, Bool.false_eq_true, if_false,
    List.cons.injEq, true_and]
  exact pySplitF_congr _ _ _ (List.dropWhile_sublist _).length_le (Nat.le_refl _)

theorem takeWhile_append_all {q : Char → Bool} : ∀ {p l : List Char},
    (∀ c ∈ p, q c = true) → (p ++ l).takeWhile q = p ++ l.takeWhile q
  | [], l, _ => rfl
  | c :: p, l, h => by
    have hc : q c = true := h c (by simp)
    simp only [List.cons_append, List.takeWhile_cons, hc, if_true]
    rw [takeWhile_append_all (fun d hd => h d (by simp [hd]))]

theorem dropWhile_append_all {q : Char → Bool} : ∀ {p l : List Char},
    (∀ c ∈ p, q c = true) → (p ++ l).dropWhile q = l.dropWhile q
  | [], l, _ => rfl
  | c :: p, l, h => by
    have hc : q c = true := h c (by simp)
    simp only [List.cons_append, List.dropWhile_cons, hc, if_true]
    exact dropWhile_append_all (fun d hd => h d (by simp [hd]))

theorem pySplit_run_append {p l : List Char} (hp : p ≠ [])
    (h : ∀ c ∈ p, isPyWs c = false) :
    pySplit (p ++ l) =
      (p ++ l.takeWhile (fun d => !isPyWs d)) ::
        pySplit (l.dropWhile (fun d => !isPyWs d)) := by
  match p, hp with
  | c :: p, _ =>
    have hc : isPyWs c = false := h c (by simp)
    have hall : ∀ d ∈ p, (fun d => !isPyWs d) d = true := by
      intro d hd; simp [h d (by simp [hd])]
    rw [List.cons_append, pySplit_cons_run hc,
      takeWhile_append_all hall, dropWhile_append_all hall]
    simp

theorem pySplit_chunk_props_aux : ∀ (n : Nat) (l : List Char), l.length ≤ n →
    ∀ p ∈ pySplitF n l, (p ≠ [] ∧ ∀ c ∈ p, isPyWs c = false) ∧ p ⊆ l
  | 0, l, hn, p, hp => by
    have : l = [] := List.length_eq_zero.mp (Nat.le_zero.mp hn)
    subst this; rw [pySplitF_nil] at hp; simp at hp
  | n + 1, [], _, p, hp => by rw [pySplitF_nil] at hp; simp at hp
  | n + 1, c :: rest, hn, p, hp => by
    simp only [List.length_cons, Nat.add_le_add_iff_right] at hn
    simp only [pySplitF] at hp
    by_cases hws : isPyWs c
    · simp only [hws, if_true] at hp
      obtain ⟨h1, h2⟩ := pySplit_chunk_props_aux n rest hn p hp
      exact ⟨h1, fun d hd => by simp [h2 hd]⟩
    · simp only [hws, Bool.false_eq_true, if_false, List.mem_cons] at hp
      rcases hp with rfl | hp
      · refine ⟨⟨by simp, ?_⟩, ?_⟩
        · intro d hd
          rcases List.mem_cons.mp hd with rfl | hd
          · simpa using hws
          · simpa using List.mem_takeWhile_imp hd
        · intro d hd
          rcases List.mem_cons.mp hd with rfl | hd
          · simp
          · exact List.mem_cons_of_mem c ((List.takeWhile_sublist _).subset hd)
      · have hd : (rest.dropWhile (fun d => !isPyWs d)).length ≤ rest.length :=
          (List.dropWhile_sublist _).length_le
        obtain ⟨h1, h2⟩ :=
          pySplit_chunk_props_aux n _ (Nat.le_trans hd hn) p hp
        refine ⟨h1, fun d hdm => ?_⟩
        exact List.mem_cons_of_mem c ((List.dropWhile_sublist _).subset (h2 hdm))

theorem pySplit_chunk_props {l : List Char} :
    ∀ p ∈ pySplit l, p ≠ [] ∧ ∀ c ∈ p, isPyWs c = false :=
  fun p hp => (pySplit_chunk_props_aux l.length l (Nat.le_refl _) p hp).1

theorem pySplit_chunk_subset {l : List Char} : ∀ p ∈ pySplit l, p ⊆ l :=
  fun p hp => (pySplit_chunk_props_aux l.length l (Nat.le_refl _) p hp).2

theorem pySplit_joinSpace : ∀ {ps : List (List Char)},
    (∀ p ∈ ps, p ≠ [] ∧ ∀ c ∈ p, isPyWs c = false) → pySplit (joinSpace ps) = ps
  | [], _ => rfl
  | [p], h => by
    obtain ⟨hne, hnws⟩ := h p (by simp)
    have hrun := pySplit_run_append (l := []) hne hnws
    simp only [List.append_nil, List.takeWhile_nil, List.dropWhile_nil] at hrun
    show pySplit p = [p]
    rw [hrun]
    rfl
  | p :: q :: ps, h => by
    obtain ⟨hne, hnws⟩ := h p (by simp)
    show pySplit (p ++ ' ' :: joinSpace (q :: ps)) = p :: q :: ps
    rw [pySplit_run_append hne hnws]
    have ht : List.takeWhile (fun d => !isPyWs d) (' ' :: joinSpace (q :: ps)) = [] := by
      rw [List.takeWhile_cons]
      norm_num [isPyWs]
    have hd : List.dropWhile (fun d => !isPyWs d) (' ' :: joinSpace (q :: ps)) =
        ' ' :: joinSpace (q :: ps) := by
      rw [List.dropWhile_cons]
      norm_num [isPyWs]
    rw [ht, hd, List.append_nil, pySplit_cons_ws (by decide)]
    rw [pySplit_joinSpace (fun r hr => h r (List.mem_cons_of_mem p hr))]

theorem collapseWs_idem (l : List Char) : collapseWs (collapseWs l) = collapseWs l := by
  show joinSpace (pySplit (joinSpace (pySplit l))) = joinSpace (pySplit l)
  rw [pySplit_joinSpace pySplit_chunk_props]

theorem mem_joinSpace : ∀ {ps : List (List Char)} {c : Char},
    c ∈ joinSpace ps → c = ' ' ∨ ∃ p ∈ ps, c ∈ p
  | [], c, h => by simp [joinSpace] at h
  | [p], c, h => by right; exact ⟨p, by simp, h⟩
  | p :: q :: ps, c, h => by
    rcases List.mem_append.mp h with hc | hc
    · right; exact ⟨p, by simp, hc⟩
    · rcases List.mem_cons.mp hc with rfl | hc
      · left; rfl
      · rcases mem_joinSpace hc with h' | ⟨r, hr, hcr⟩
        · left; exact h'
        · right; exact ⟨r, by simp [List.mem_cons] at hr ⊢; tauto, hcr⟩

theorem mem_collapseWs {l : List Char} {c : Char} (h : c ∈ collapseWs l) :
    c = ' ' ∨ (c ∈ l ∧ isPyWs c = false) := by
  rcases mem_joinSpace h with h' | ⟨p, hp, hcp⟩
  · left; exact h'
  · right
    exact ⟨pySplit_chunk_subset p hp hcp, (pySplit_chunk_props p hp).2 c hcp⟩

theorem strContains_cons (needle : List Char) (c : Char) (rest : List Char) :
    strContains needle (c :: rest) =
      (needle.isPrefixOf (c :: rest) || strContains needle rest) := rfl

theorem removeAll_of_not_contains {pat : List Char} : ∀ {l : List Char},
    strContains pat l = false → removeAll pat l = l := by
  suffices h : ∀ (n : Nat) (l : List Char), l.length ≤ n →
      strContains pat l = false → removeAllF pat n l = l by
    intro l hl
    exact h l.length l (Nat.le_refl _) hl
  intro n
  induction n with
  | zero => intro l _ _; rfl
  | succ n ih =>
    intro l hl hc
    match l with
    | [] => rfl
    | c :: rest =>
      rw [strContains_cons, Bool.or_eq_false_iff] at hc
      simp only [List.length_cons, Nat.add_le_add_iff_right] at hl
      show removeAllF pat (n + 1) (c :: rest) = c :: rest
      simp only [removeAllF, hc.1, Bool.false_eq_true, and_false, if_false]
      rw [ih rest hl hc.2]

theorem removeAll_subset {pat : List Char} : ∀ {l : List Char},
    removeAll pat l ⊆ l := by
  suffices h : ∀ (n : Nat) (l : List Char), l.length ≤ n →
      removeAllF pat n l ⊆ l by
    intro l
    exact h l.length l (Nat.le_refl _)
  intro n
  induction n with
  | zero => intro l _; exact fun c hc => hc
  | succ n ih =>
    intro l hl
    match l with
    | [] => exact fun c hc => hc
    | c :: rest =>
      simp only [List.length_cons, Nat.add_le_add_iff_right] at hl
      show removeAllF pat (n + 1) (c :: rest) ⊆ c :: rest
      simp only [removeAllF]
      by_cases hp : pat ≠ [] ∧ pat.isPrefixOf (c :: rest)
      · rw [if_pos hp]
        intro d hd
        have h1 : d ∈ rest.drop (pat.length - 1) :=
          ih _ (Nat.le_trans (List.drop_sublist _ _).length_le hl) hd
        exact List.mem_cons_of_mem c (List.drop_subset _ _ h1)
      · rw [if_neg hp]
        intro d hd
        rcases List.mem_cons.mp hd with rfl | hd
        · simp
        · exact List.mem_cons_of_mem c (ih rest hl hd)

theorem char_toNat_ofNat (n : Nat) (h : n.isValidChar) : (Char.ofNat n).toNat = n := by
  simp only [Char.ofNat, h, dite_true, Char.ofNatAux, Char.toNat]
  rfl

theorem pyLower_idem (c : Char) : pyLower (pyLower c) = pyLower c := by
  by_cases h : 65 ≤ c.toNat ∧ c.toNat ≤ 90
  · have hvalid : (c.toNat + 32).isValidChar := by
      left
      omega
    have ht : (Char.ofNat (c.toNat + 32)).toNat = c.toNat + 32 :=
      char_toNat_ofNat _ hvalid
    have hc : pyLower c = Char.ofNat (c.toNat + 32) := by
      rw [pyLower, if_pos h]
    rw [hc, pyLower, if_neg (by rw [ht]; omega)]
  · have hc : pyLower c = c := by
      rw [pyLower, if_neg h]
    rw [hc, hc]

theorem mem_punctToSpace {l : List Char} {c : Char} (h : c ∈ punctToSpace l) :
    c = ' ' ∨ (c ∈ l ∧ (isWordChar c || isPyWs c) = true) := by
  obtain ⟨d, hd, hc⟩ := List.mem_map.mp h
  by_cases hgood : isWordChar d || isPyWs d
  · rw [if_pos hgood] at hc
    subst hc
    right
    exact ⟨hd, hgood⟩
  · rw [if_neg hgood] at hc
    left
    exact hc.symm

theorem map_fix {f : Char → Char} : ∀ {l : List Char},
    (∀ a ∈ l, f a = a) → l.map f = l
  | [], _ => rfl
  | a :: t, h => by
    simp only [List.map_cons]
    rw [h a (by simp), map_fix (fun b hb => h b (List.mem_cons_of_mem a hb))]

theorem normalizeName_chars {s : Str} {c : Char} (h : c ∈ normalizeName s) :
    pyLower c = c ∧ (isWordChar c || isPyWs c) = true := by
  have hsp : pyLower ' ' = ' ' ∧ (isWordChar ' ' || isPyWs ' ') = true := by decide
  rcases mem_collapseWs h with rfl | ⟨hmem, hws⟩
  · exact hsp
  rcases mem_punctToSpace hmem with rfl | ⟨hmem2, hgood⟩
  · exact hsp
  refine ⟨?_, hgood⟩
  have hs1 : c ∈ pyLowerS (collapseWs s) :=
    removeAll_subset (removeAll_subset (removeAll_subset (removeAll_subset hmem2)))
  obtain ⟨d, _, hc⟩ := List.mem_map.mp hs1
  subst hc
  exact pyLower_idem d

theorem collapseWs_of_normalized (s : Str) :
    collapseWs (normalizeName s) = normalizeName s :=
  collapseWs_idem _

theorem normalizeName_fixpoint {t : Str}
    (hlow : ∀ c ∈ t, pyLower c = c)
    (hgood : ∀ c ∈ t, (isWordChar c || isPyWs c) = true)
    (hcol : collapseWs t = t)
    (hv : hasVendorToken t = false) :
    normalizeName t = t := by
  have h1 : pyLowerS (collapseWs t) = t := by
    rw [hcol]
    exact map_fix hlow
  have hv4 := hv
  simp only [hasVendorToken, Bool.or_eq_false_iff] at hv4
  show collapseWs (punctToSpace (removeAll ("radeon ".toList)
    (removeAll ("geforce ".toList) (removeAll ("intel ".toList)
      (removeAll ("amd ".toList) (pyLowerS (collapseWs t))))))) = t
  rw [h1, removeAll_of_not_contains hv4.1.1.1, removeAll_of_not_contains hv4.1.1.2,
    removeAll_of_not_contains hv4.1.2, removeAll_of_not_contains hv4.2]
  have h2 : punctToSpace t = t := map_fix (fun a ha => by
    simp only [hgood a ha, if_true])
  rw [h2, hcol]

/-! ### Lemmas about the stable descending sort -/

theorem insertDesc_perm {α β : Type} (key : α → β) [LinearOrder β] (x : α) :
    ∀ l : List α, (insertDesc key x l).Perm (x :: l)
  | [] => List.Perm.refl _
  | y :: ys => by
    by_cases h : key x < key y
    · rw [show insertDesc key x (y :: ys) = y :: insertDesc key x ys from by
        simp [insertDesc, h]]
      exact ((insertDesc_perm key x ys).cons y).trans (List.Perm.swap x y ys)
    · rw [show insertDesc key x (y :: ys) = x :: y :: ys from by
        simp [insertDesc, h]]

theorem sortDescBy_perm {α β : Type} (key : α → β) [LinearOrder β] :
    ∀ l : List α, (sortDescBy key l).Perm l
  | [] => List.Perm.refl _
  | x :: xs =>
    (insertDesc_perm key x (sortDescBy key xs)).trans ((sortDescBy_perm key xs).cons x)

theorem pairwiseDescBy_cons_cons {α β : Type} (key : α → β) [LinearOrder β]
    (a b : α) (t : List α) :
    pairwiseDescBy key (a :: b :: t) =
      (decide (key b ≤ key a) && pairwiseDescBy key (b :: t)) := rfl

theorem pairwiseDescBy_insertDesc {α β : Type} (key : α → β) [LinearOrder β] (x : α) :
    ∀ l, pairwiseDescBy key l = true → pairwiseDescBy key (insertDesc key x l) = true
  | [], _ => rfl
  | [y], h => by
    by_cases hxy : key x < key y
    · rw [show insertDesc key x [y] = [y, x] from by simp [insertDesc, hxy]]
      simp [pairwiseDescBy_cons_cons, le_of_lt hxy, pairwiseDescBy]
    · rw [show insertDesc key x [y] = [x, y] from by simp [insertDesc, hxy]]
      simp [pairwiseDescBy_cons_cons, not_lt.mp hxy, pairwiseDescBy]
  | y :: z :: zs, h => by
    rw [pairwiseDescBy_cons_cons, Bool.and_eq_true, decide_eq_true_eq] at h
    obtain ⟨hzy, htail⟩ := h
    by_cases hxy : key x < key y
    · rw [show insertDesc key x (y :: z :: zs) = y :: insertDesc key x (z :: zs) from by
        simp [insertDesc, hxy]]
      have ih := pairwiseDescBy_insertDesc key x (z :: zs) htail
      by_cases hxz : key x < key z
      · rw [show insertDesc key x (z :: zs) = z :: insertDesc key x zs from by
          simp [insertDesc, hxz]] at ih ⊢
        rw [pairwiseDescBy_cons_cons, Bool.and_eq_true, decide_eq_true_eq]
        exact ⟨hzy, ih⟩
      · rw [show insertDesc key x (z :: zs) = x :: z :: zs from by
          simp [insertDesc, hxz]] at ih ⊢
        rw [pairwiseDescBy_cons_cons, Bool.and_eq_true, decide_eq_true_eq]
        exact ⟨le_of_lt hxy, ih⟩
    · rw [show insertDesc key x (y :: z :: zs) = x :: y :: z :: zs from by
        simp [insertDesc, hxy]]
      rw [pairwiseDescBy_cons_cons, Bool.and_eq_true, decide_eq_true_eq]
      refine ⟨not_lt.mp hxy, ?_⟩
      rw [pairwiseDescBy_cons_cons, Bool.and_eq_true, decide_eq_true_eq]
      exact ⟨hzy, htail⟩

theorem pairwiseDescBy_sortDescBy {α β : Type} (key : α → β) [LinearOrder β] :
    ∀ l : List α, pairwiseDescBy key (sortDescBy key l) = true
  | [] => rfl
  | x :: xs =>
    pairwiseDescBy_insertDesc key x (sortDescBy key xs) (pairwiseDescBy_sortDescBy key xs)

theorem filter_insertDesc_of_key {α β : Type} (key : α → β) [LinearOrder β]
    (x : α) (p : α → Bool) (k : β) (hp : ∀ a, p a = true → key a = k) :
    ∀ l, (insertDesc key x l).filter p =
      if p x then x :: l.filter p else l.filter p
  | [] => by
    by_cases hx : p x
    · simp [insertDesc, List.filter, hx]
    · simp [insertDesc, List.filter, hx]
  | y :: ys => by
    by_cases hxy : key x < key y
    · rw [show insertDesc key x (y :: ys) = y :: insertDesc key x ys from by
        simp [insertDesc, hxy]]
      by_cases hx : p x
      · have hy : p y = false := by
          by_contra hy
          have hy' : p y = true := by
            cases hpy : p y
            · exact absurd hpy hy
            · rfl
          have : key y = k := hp y hy'
          have hxk : key x = k := hp x (by simpa using hx)
          rw [this, hxk] at hxy
          exact lt_irrefl k hxy
        rw [List.filter_cons_of_neg (by simp [hy]),
          filter_insertDesc_of_key key x p k hp ys,
          List.filter_cons_of_neg (by simp [hy])]
      · have hx' : p x = false := by
          cases hpx : p x
          · rfl
          · exact absurd hpx hx
        rw [List.filter_cons, filter_insertDesc_of_key key x p k hp ys]
        simp only [hx', Bool.false_eq_true, if_false]
        rw [List.filter_cons]
    · rw [show insertDesc key x (y :: ys) = x :: y :: ys from by
        simp [insertDesc, hxy]]
      by_cases hx : p x
      · rw [List.filter_cons_of_pos (by simpa using hx), if_pos hx]
      · have hx' : p x = false := by
          cases hpx : p x
          · rfl
          · exact absurd hpx hx
        rw [List.filter_cons_of_neg (by simp [hx']), if_neg hx]

theorem filter_sortDescBy_of_key {α β : Type} (key : α → β) [LinearOrder β]
    (p : α → Bool) (k : β) (hp : ∀ a, p a = true → key a = k) :
    ∀ l, (sortDescBy key l).filter p = l.filter p
  | [] => rfl
  | x :: xs => by
    rw [show sortDescBy key (x :: xs) = insertDesc key x (sortDescBy key xs) from rfl,
      filter_insertDesc_of_key key x p k hp]
    by_cases hx : p x
    · rw [if_pos hx, filter_sortDescBy_of_key key p k hp xs,
        List.filter_cons_of_pos (by simpa using hx)]
    · have hx' : p x = false := by
        cases hpx : p x
        · rfl
        · exact absurd hpx hx
      rw [if_neg hx, filter_sortDescBy_of_key key p k hp xs,
        List.filter_cons_of_neg (by simp [hx'])]

/-! ### Claim C3 — idempotence of name normalization -/

/-- Claim C3 (counterexample): normalization is not idempotent.  For
`"amd.x"` the punctuation pass turns the dot into a space, re-creating the
vendor token `"amd "` after the vendor-strip pass already ran, so a second
normalization removes it: `normalize("amd.x") = "amd x"` but
`normalize("amd x") = "x"`. -/
theorem c3_counterexample :
    normalizeName (normalizeName "amd.x".toList) ≠ normalizeName "amd.x".toList := by
  decide

/-- Claim C3 (amended): normalization is idempotent exactly on the inputs
whose normalized form contains none of the four vendor-prefix tokens
(`"amd "`, `"intel "`, `"geforce "`, `"radeon "`) as a substring; the
punctuation pass can otherwise re-create a token that only a second
normalization strips. -/
theorem c3_normalize_idempotent (s : Str)
    (h : hasVendorToken (normalizeName s) = false) :
    normalizeName (normalizeName s) = normalizeName s :=
  normalizeName_fixpoint (fun _ hc => (normalizeName_chars hc).1)
    (fun _ hc => (normalizeName_chars hc).2) (collapseWs_of_normalized s) h

theorem c3_witness :
    hasVendorToken (normalizeName "AMD Ryzen 7 7800X3D".toList) = false ∧
      normalizeName (normalizeName "AMD Ryzen 7 7800X3D".toList) =
        normalizeName "AMD Ryzen 7 7800X3D".toList :=
  ⟨by decide, c3_normalize_idempotent _ (by decide)⟩

/-! ### Claim C4 — lookup strategy order -/

theorem scanLookup_eq_find (nq cq : Str) : ∀ cat : Catalog,
    scanLookup nq cq cat =
      (cat.find? (fun p => tokensMatch nq (normalizeName p.1) ||
        (decide (cq ≠ []) && strContains cq (compactName p.1)))).map Prod.snd
  | [] => rfl
  | (name, data) :: rest => by
    by_cases h1 : tokensMatch nq (normalizeName name)
    · rw [show scanLookup nq cq ((name, data) :: rest) = some data from by
        simp [scanLookup, h1]]
      rw [List.find?_cons_of_pos _ (by simp [h1])]
      rfl
    · by_cases h2 : cq ≠ [] ∧ strContains cq (compactName name)
      · rw [show scanLookup nq cq ((name, data) :: rest) = some data from by
          simp [scanLookup, h1, h2]]
        rw [List.find?_cons_of_pos _ (by simp [h1, h2.1, h2.2])]
        rfl
      · rw [show scanLookup nq cq ((name, data) :: rest) = scanLookup nq cq rest from by
          simp [scanLookup, h1, h2]]
        rw [List.find?_cons_of_neg _ (by
          simp only [Bool.or_eq_true, Bool.and_eq_true, decide_eq_true_eq, not_or, not_and]
          push_neg at h2
          exact ⟨by simpa using h1, fun hne => by simpa using h2 hne⟩),
          scanLookup_eq_find nq cq rest]

/-- Claim C4 (counterexample): the token-subset strategy does not rank
above the compact-substring fallback.  With query `"pentium g"`,
`cat4demo`'s second record passes the token-subset test while its first
record passes only the compact-substring test, yet the lookup returns the
first record, because both tests run per record within one scan. -/
theorem c4_counterexample :
    tokensMatch (normalizeName "pentium g".toList)
        (normalizeName "pentium g extreme".toList) = true ∧
      tokensMatch (normalizeName "pentium g".toList)
        (normalizeName "xpentiumgx".toList) = false ∧
      strContains (compactName "pentium g".toList)
        (compactName "xpentiumgx".toList) = true ∧
      lookupIn cat4demo "pentium g".toList = some (recRank 1) := by
  exact ⟨by decide, by decide, by decide, by decide⟩

/-- Claim C4 (amended): the lookup tries the normalized-index and
compact-index strategies in order with the first hit winning; when both
miss, one linear scan in catalog order tests each record for the
token-subset match and then for the compact-substring fallback, returning
the first record that passes either test — so a fallback-only record
earlier in the catalog shadows a token-matching record later in it. -/
theorem c4_lookup_strategy_order (cat : Catalog) (q : Str) :
    lookupIn cat q = lookupSpec cat q := by
  unfold lookupIn lookupSpec
  simp only [scanLookup_eq_find]

/-! ### Claim C5 — exact stored-name lookup -/

theorem nodup_key_unique {cat : Catalog} (h : (cat.map Prod.fst).Nodup) :
    ∀ {k : Str} {v1 v2 : Rec}, (k, v1) ∈ cat → (k, v2) ∈ cat → v1 = v2 := by
  induction cat with
  | nil => intro k v1 v2 h1 _; simp at h1
  | cons a t ih =>
    rw [List.map_cons, List.nodup_cons] at h
    intro k v1 v2 h1 h2
    rcases List.mem_cons.mp h1 with h1 | h1 <;> rcases List.mem_cons.mp h2 with h2 | h2
    · rw [← h2] at h1
      exact (Prod.ext_iff.mp h1).2
    · exfalso
      apply h.1
      have hk : a.1 = k := by rw [← h1]
      rw [hk]
      exact List.mem_map.mpr ⟨(k, v2), h2, rfl⟩
    · exfalso
      apply h.1
      have hk : a.1 = k := by rw [← h2]
      rw [hk]
      exact List.mem_map.mpr ⟨(k, v1), h1, rfl⟩
    · exact ih h.2 h1 h2

theorem truthyStr_some {s : Str} (h : s ≠ []) : truthyStr (some s) = some s := by
  match s, h with
  | c :: t, _ => rfl

/-- Claim C5 (amended): looking up a record's exact stored (non-empty) name
returns that record *provided* no two distinct stored names in the catalog
share a normalized form; a collision in the derived normalized index keeps
only the last colliding name, which can shadow the queried record. -/
theorem c5_exact_name_lookup (cat : Catalog) (name : Str) (r : Rec)
    (hmem : (name, r) ∈ cat)
    (hkeys : (cat.map Prod.fst).Nodup)
    (hinj : ∀ n1 ∈ cat.map Prod.fst, ∀ n2 ∈ cat.map Prod.fst,
      normalizeName n1 = normalizeName n2 → n1 = n2)
    (hne : name ≠ []) :
    lookupIn cat name = some r := by
  have hkey : name ∈ cat.map Prod.fst := List.mem_map.mpr ⟨(name, r), hmem, rfl⟩
  have hfind : getIndexVal normalizeName cat (normalizeName name) = some name := by
    have hsome : ((cat.map Prod.fst).reverse.find?
        (fun n => decide (normalizeName n = normalizeName name))).isSome := by
      rw [List.find?_isSome]
      exact ⟨name, List.mem_reverse.mpr hkey, by simp⟩
    obtain ⟨a, ha⟩ := Option.isSome_iff_exists.mp hsome
    have hpa : normalizeName a = normalizeName name := by
      have := List.find?_some ha
      simpa using this
    have hamem : a ∈ cat.map Prod.fst :=
      List.mem_reverse.mp (List.mem_of_find?_eq_some ha)
    have : a = name := hinj a hamem name hkey hpa
    subst this
    exact ha
  have hget : catGet cat name = some r := by
    have hsome : (cat.find? (fun p => decide (p.1 = name))).isSome := by
      rw [List.find?_isSome]
      exact ⟨(name, r), hmem, by simp⟩
    obtain ⟨p, hp⟩ := Option.isSome_iff_exists.mp hsome
    have hkeq : p.1 = name := by
      have := List.find?_some hp
      simpa using this
    have hpmem : p ∈ cat := List.mem_of_find?_eq_some hp
    have : p.2 = r := by
      have hpp : (name, p.2) ∈ cat := by
        rw [← hkeq]
        exact hpmem
      exact nodup_key_unique hkeys hpp hmem
    rw [catGet, hp]
    show some p.2 = some r
    rw [this]
  rw [lookupIn]
  rw [hfind, truthyStr_some hne]
  exact hget

/-- Claim C5 (counterexample): `cat5bad` stores `"ryzen 5"` (rank 1) and
`"ryzen:5"` (rank 2), whose normalized forms are both `"ryzen 5"`; the
normalized-index comprehension keeps the last name, so looking up the
exact stored name `"ryzen 5"` returns the *other* record. -/
theorem c5_counterexample :
    ("ryzen 5".toList, recRank 1) ∈ cat5bad ∧
      recRank 1 ≠ recRank 2 ∧
      lookupIn cat5bad "ryzen 5".toList = some (recRank 2) := by
  exact ⟨by decide, by decide, by decide⟩

theorem c5_witness : lookupIn cat5good "ryzen 5".toList = some (recRank 1) :=
  c5_exact_name_lookup cat5good ("ryzen 5".toList) (recRank 1)
    (by decide) (by decide) (by decide) (by decide)

/-! ### Claim C10 — case-sensitivity mismatch in `lookup_benchmark` -/

/-- Claim C10: when the category is spelled `"CPU"` in any non-lowercase
casing, the dispatch (`category.lower() == "cpu"`) resolves the part in a
CPU catalog, but the score extraction (`category == "cpu"`, exact) takes
the GPU field path and reads `"benchmark_score"`, which CPU records lack —
so the call returns a no-score error even when the record has a rating. -/
theorem c10_case_mismatch (db : Db) (part category benchmarkType : Str) (r : Rec)
    (hne : ¬(db.cpu_gaming = [] ∧ db.cpu_software = [] ∧ db.gpu = []))
    (hcat : pyLowerS category = "cpu".toList)
    (hexact : category ≠ "cpu".toList)
    (hbt : pyLowerS benchmarkType ≠ "software".toList)
    (hfound : lookupIn db.cpu_gaming part = some r)
    (hnoscore : r.benchmark_score = none) :
    lookupBenchmark db part category benchmarkType = .err (.noScore part) := by
  have hcat0 : category ≠ [] := by
    intro hnil
    rw [hnil] at hcat
    simp [pyLowerS] at hcat
  rw [lookupBenchmark, if_neg hne]
  simp only [if_neg hcat0, hcat, if_pos rfl, if_neg hbt, hfound, if_neg hexact, hnoscore]
  simp only [if_true, hnoscore]

theorem c10_witness :
    lookupBenchmark dbDemo "alpha one".toList "CPU".toList "gaming".toList =
      .err (.noScore "alpha one".toList) :=
  c10_case_mismatch dbDemo ("alpha one".toList) ("CPU".toList) ("gaming".toList)
    (recRankRating 10 50) (by decide) (by decide) (by decide) (by decide)
    (by decide) (by decide)

/-! ### Claim C9 — `get_top_performers` ordering -/

theorem pairwiseDescBy_take {α β : Type} (key : α → β) [LinearOrder β] :
    ∀ (n : Nat) (l : List α), pairwiseDescBy key l = true →
      pairwiseDescBy key (l.take n) = true
  | 0, l, _ => by rw [List.take_zero]; rfl
  | _ + 1, [], _ => rfl
  | _ + 1, [a], _ => by
    rw [List.take_succ_cons, List.take_nil]; rfl
  | n + 1, a :: b :: t, h => by
    rw [List.take_succ_cons]
    cases n with
    | zero => rw [List.take_zero]; rfl
    | succ m =>
      rw [pairwiseDescBy_cons_cons, Bool.and_eq_true, decide_eq_true_eq] at h
      rw [List.take_succ_cons, pairwiseDescBy_cons_cons, Bool.and_eq_true,
        decide_eq_true_eq]
      refine ⟨h.1, ?_⟩
      have := pairwiseDescBy_take key (m + 1) (b :: t) h.2
      rwa [List.take_succ_cons] at this

theorem pairwiseDescBy_map {α γ β : Type} (k1 : α → β) (k2 : γ → β) [LinearOrder β]
    (f : α → γ) (hf : ∀ a, k2 (f a) = k1 a) :
    ∀ l : List α, pairwiseDescBy k2 (l.map f) = pairwiseDescBy k1 l
  | [] => rfl
  | [_] => rfl
  | a :: b :: t => by
    rw [List.map_cons, List.map_cons, pairwiseDescBy_cons_cons,
      pairwiseDescBy_cons_cons, hf a, hf b]
    have ih := pairwiseDescBy_map k1 k2 f hf (b :: t)
    rw [List.map_cons] at ih
    rw [ih]

/-- Claim C9 (amended): for a `"cpu"` or `"gpu"` category (any casing) and
a *non-negative* limit, `get_top_performers` succeeds with a list of at
most `limit` items, each derived from a record of the dispatched catalog
whose stored rank is an integer, ordered by stored rank descending (largest
rank number — the worst-performing part — first).  For a negative limit the
Python slice `[:limit]` instead drops `|limit|` items from the end, which
can exceed `limit`. -/
theorem c9_top_desc (db : Db) (category benchmarkType : Str) (limit : ℤ)
    (hl : 0 ≤ limit)
    (hcat : pyLowerS category = "cpu".toList ∨ pyLowerS category = "gpu".toList) :
    ∃ title items, getTopPerformers db category benchmarkType limit = .ok title items ∧
      ((items.length : ℤ) ≤ limit) ∧
      pairwiseDescBy titemRank items = true ∧
      (∀ it ∈ items, ∃ p,
        (p ∈ db.cpu_gaming ∨ p ∈ db.cpu_software ∨ p ∈ db.gpu) ∧
        hasIntRank p = true ∧ it.name = p.1 ∧ it.rank = p.2.rank) := by
  have hslice : ∀ (l : List (Str × Rec)), (pySliceTo limit l).length ≤ limit.toNat := by
    intro l
    rw [pySliceTo, if_neg (by omega)]
    simp [List.length_take]
  have hlen : ∀ (l : List (Str × Rec)) (f : Str × Rec → TItem),
      (((pySliceTo limit l).map f).length : ℤ) ≤ limit := by
    intro l f
    rw [List.length_map]
    calc ((pySliceTo limit l).length : ℤ) ≤ (limit.toNat : ℤ) := by
          exact_mod_cast hslice l
      _ = limit := Int.toNat_of_nonneg hl
  have hsorted : ∀ (src : Catalog) (f : Str × Rec → TItem),
      (∀ p, (f p).rank = p.2.rank) →
      pairwiseDescBy titemRank
        ((pySliceTo limit (sortDescBy rankKeyZ (src.filter hasIntRank))).map f) = true := by
    intro src f hf
    rw [pairwiseDescBy_map rankKeyZ titemRank f (fun p => by
      rw [titemRank, hf p, rankKeyZ])]
    rw [pySliceTo]
    split
    · exact pairwiseDescBy_take _ _ _ (pairwiseDescBy_sortDescBy _ _)
    · exact pairwiseDescBy_take _ _ _ (pairwiseDescBy_sortDescBy _ _)
  have hmem : ∀ (src : Catalog) (f : Str × Rec → TItem),
      (∀ p, (f p).rank = p.2.rank) → (∀ p, (f p).name = p.1) →
      ∀ it ∈ (pySliceTo limit (sortDescBy rankKeyZ (src.filter hasIntRank))).map f,
        ∃ p, p ∈ src ∧ hasIntRank p = true ∧ it.name = p.1 ∧ it.rank = p.2.rank := by
    intro src f hf hfn it hit
    obtain ⟨p, hp, rfl⟩ := List.mem_map.mp hit
    have hp2 : p ∈ sortDescBy rankKeyZ (src.filter hasIntRank) := by
      rw [pySliceTo] at hp
      split at hp
      · exact List.take_subset _ _ hp
      · exact List.take_subset _ _ hp
    have hp3 : p ∈ src.filter hasIntRank :=
      (sortDescBy_perm rankKeyZ _).subset hp2
    exact ⟨p, List.mem_of_mem_filter hp3, List.of_mem_filter hp3, hfn p, hf p⟩
  rcases hcat with hcat | hcat
  · rw [getTopPerformers, if_pos hcat]
    by_cases hbt : pyLowerS benchmarkType = "software".toList
    · rw [if_pos hbt]
      refine ⟨_, _, rfl, hlen _ _, hsorted _ _ (fun p => rfl), ?_⟩
      intro it hit
      obtain ⟨p, hp, h2, h3, h4⟩ := hmem db.cpu_software _ (fun p => rfl) (fun p => rfl) it hit
      exact ⟨p, Or.inr (Or.inl hp), h2, h3, h4⟩
    · rw [if_neg hbt]
      refine ⟨_, _, rfl, hlen _ _, hsorted _ _ (fun p => rfl), ?_⟩
      intro it hit
      obtain ⟨p, hp, h2, h3, h4⟩ := hmem db.cpu_gaming _ (fun p => rfl) (fun p => rfl) it hit
      exact ⟨p, Or.inl hp, h2, h3, h4⟩
  · have hne : ¬ pyLowerS category = "cpu".toList := by
      rw [hcat]
      decide
    rw [getTopPerformers, if_neg hne, if_pos hcat]
    refine ⟨_, _, rfl, hlen _ _, hsorted _ _ (fun p => rfl), ?_⟩
    intro it hit
    obtain ⟨p, hp, h2, h3, h4⟩ := hmem db.gpu _ (fun p => rfl) (fun p => rfl) it hit
    exact ⟨p, Or.inr (Or.inr hp), h2, h3, h4⟩

/-- Claim C9 (counterexample): with `limit = -1` the slice `[:limit]`
returns all but the last of the two ranked records — one item, which is
not "at most `limit`" many. -/
theorem c9_counterexample :
    getTopPerformers dbDemo "cpu".toList "gaming".toList (-1) =
      .ok "Processor Gaming Benchmark".toList
        [{ name := "alpha one".toList, score := some 50,
           relative_performance := none, rank := some (.intVal 10) }] ∧
      ¬((1 : ℤ) ≤ -1) := by
  exact ⟨by decide, by decide⟩

theorem c9_witness :
    ∃ title items,
      getTopPerformers dbDemo "cpu".toList "gaming".toList 2 = .ok title items ∧
      ((items.length : ℤ) ≤ 2) ∧
      pairwiseDescBy titemRank items = true ∧
      (∀ it ∈ items, ∃ p,
        (p ∈ dbDemo.cpu_gaming ∨ p ∈ dbDemo.cpu_software ∨ p ∈ dbDemo.gpu) ∧
        hasIntRank p = true ∧ it.name = p.1 ∧ it.rank = p.2.rank) :=
  c9_top_desc dbDemo ("cpu".toList) ("gaming".toList) 2 (by decide) (Or.inl (by decide))

/-! ### Claim C1 — `select_best_part` -/

/-- `None`-absorbing minimum combination. -/
def combMin : Option ℚ → Option ℚ → Option ℚ
  | none, b => b
  | some x, none => some x
  | some x, some y => some (min x y)

theorem combMin_none_right : ∀ a, combMin a none = a
  | none => rfl
  | some _ => rfl

theorem combMin_assoc : ∀ a b c, combMin (combMin a b) c = combMin a (combMin b c)
  | none, _, _ => rfl
  | some _, none, none => rfl
  | some _, none, some _ => rfl
  | some _, some _, none => rfl
  | some x, some y, some z => by
    simp only [combMin]
    rw [min_assoc]

/-- The observation a single price item contributes to key `k`. -/
def obsHead (it : PItem) (k : Str) : Option ℚ :=
  match validObs it with
  | some p => if p.1 = k then some p.2 else none
  | none => none

theorem lowestObs_cons (it : PItem) (l : List PItem) (k : Str) :
    lowestObs (it :: l) k = combMin (obsHead it k) (lowestObs l k) := by
  cases hv : validObs it with
  | none =>
    have ho : obsHead it k = none := by rw [obsHead, hv]
    have h1 : lowestObs (it :: l) k = lowestObs l k := by
      rw [lowestObs, List.filterMap_cons, hv, lowestObs]
    rw [h1, ho]
    rfl
  | some p =>
    have ho : obsHead it k = if p.1 = k then some p.2 else none := by
      rw [obsHead, hv]
    by_cases hk : p.1 = k
    · have h1 : lowestObs (it :: l) k =
          minQ? (p.2 ::
            (((l.filterMap validObs).filter (fun q => decide (q.1 = k))).map Prod.snd)) := by
        rw [lowestObs, List.filterMap_cons, hv,
          List.filter_cons_of_pos (by simp [hk]), List.map_cons]
      rw [h1, ho, if_pos hk, lowestObs, minQ?]
      cases hM : minQ? (((l.filterMap validObs).filter
          (fun q => decide (q.1 = k))).map Prod.snd) with
      | none => rfl
      | some w => rfl
    · have h1 : lowestObs (it :: l) k = lowestObs l k := by
        rw [lowestObs, List.filterMap_cons, hv,
          List.filter_cons_of_neg (by simp [hk]), lowestObs]
      rw [h1, ho, if_neg hk]
      rfl

theorem mapGet_nonempty {m : List (Str × ℚ)} {k : Str} {e : ℚ}
    (h : mapGet m k = some e) : m ≠ [] := by
  intro hm
  rw [hm] at h
  simp [mapGet] at h

theorem updateMin_eq_of_none {m : List (Str × ℚ)} {k : Str} {v : ℚ}
    (hg : mapGet m k = none) : updateMin m k v = m ++ [(k, v)] := by
  rw [updateMin, hg]

theorem updateMin_eq_of_lt {m : List (Str × ℚ)} {k : Str} {v e : ℚ}
    (hg : mapGet m k = some e) (hlt : v < e) :
    updateMin m k v = m.map (fun q => if q.1 = k then (k, v) else q) := by
  rw [updateMin, hg]
  exact if_pos hlt

theorem updateMin_eq_of_ge {m : List (Str × ℚ)} {k : Str} {v e : ℚ}
    (hg : mapGet m k = some e) (hlt : ¬ v < e) : updateMin m k v = m := by
  rw [updateMin, hg]
  exact if_neg hlt

theorem find?_eq_none_of_mapGet {m : List (Str × ℚ)} {k : Str}
    (hg : mapGet m k = none) : m.find? (fun p => decide (p.1 = k)) = none := by
  rw [mapGet] at hg
  cases hf : m.find? (fun p => decide (p.1 = k)) with
  | none => rfl
  | some p => rw [hf] at hg; simp at hg

theorem mapGet_updateMin_self (m : List (Str × ℚ)) (k : Str) (v : ℚ) :
    mapGet (updateMin m k v) k = combMin (mapGet m k) (some v) := by
  cases hg : mapGet m k with
  | none =>
    rw [updateMin_eq_of_none hg, combMin, mapGet, List.find?_append,
      find?_eq_none_of_mapGet hg]
    show Option.map Prod.snd (List.find? (fun p => decide (p.1 = k)) [(k, v)]) = some v
    rw [List.find?_cons_of_pos _ (by simp)]
    rfl
  | some e =>
    by_cases hlt : v < e
    · rw [updateMin_eq_of_lt hg hlt]
      show mapGet (m.map _) k = some (min e v)
      rw [min_eq_right (le_of_lt hlt)]
      induction m with
      | nil => simp [mapGet] at hg
      | cons a t ih =>
        by_cases hak : a.1 = k
        · rw [List.map_cons, if_pos hak]
          rw [mapGet, List.find?_cons_of_pos _ (by simp)]
          rfl
        · rw [mapGet, List.find?_cons_of_neg _ (by simp [hak])] at hg
          rw [List.map_cons, if_neg hak]
          rw [mapGet, List.find?_cons_of_neg _ (by simp [hak])]
          exact ih hg
    · rw [updateMin_eq_of_ge hg hlt, hg, combMin,
        min_eq_left (not_lt.mp hlt)]

theorem mapGet_updateMin_other (m : List (Str × ℚ)) (k k' : Str) (v : ℚ)
    (hne : k' ≠ k) : mapGet (updateMin m k v) k' = mapGet m k' := by
  cases hg : mapGet m k with
  | none =>
    rw [updateMin_eq_of_none hg, mapGet, List.find?_append, mapGet]
    cases hf : (m.find? (fun p => decide (p.1 = k'))) with
    | none =>
      show Option.map Prod.snd (List.find? (fun p => decide (p.1 = k')) [(k, v)]) =
        Option.map Prod.snd none
      rw [List.find?_cons_of_neg _ (by simp [Ne.symm hne]), List.find?_nil]
    | some p => rfl
  | some e =>
    by_cases hlt : v < e
    · rw [updateMin_eq_of_lt hg hlt]
      clear hg
      induction m with
      | nil => rfl
      | cons a t ih =>
        by_cases hak : a.1 = k
        · rw [List.map_cons, if_pos hak]
          rw [mapGet, List.find?_cons_of_neg _ (by simp [Ne.symm hne])]
          rw [mapGet, List.find?_cons_of_neg _ (by simp [hak, Ne.symm hne])]
          exact ih
        · rw [List.map_cons, if_neg hak]
          by_cases hak2 : a.1 = k'
          · rw [mapGet, List.find?_cons_of_pos _ (by simp [hak2]),
              mapGet, List.find?_cons_of_pos _ (by simp [hak2])]
          · rw [mapGet, List.find?_cons_of_neg _ (by simp [hak2]),
              mapGet, List.find?_cons_of_neg _ (by simp [hak2])]
            exact ih
    · rw [updateMin_eq_of_ge hg hlt]

/-- One step of the price-map fold. -/
def pmStep (m : List (Str × ℚ)) (it : PItem) : List (Str × ℚ) :=
  match it.price with
  | .num v => if pitemKey it = [] then m else updateMin m (pitemKey it) v
  | _ => m

theorem buildPriceMap_eq_fold (prices : List PItem) :
    buildPriceMap prices = prices.foldl pmStep [] := by
  rw [buildPriceMap]
  apply congrFun
  apply congrFun
  apply congrArg
  funext m it
  rw [pmStep]

theorem mapGet_pmStep (m : List (Str × ℚ)) (it : PItem) (k : Str) :
    mapGet (pmStep m it) k = combMin (mapGet m k) (obsHead it k) := by
  cases hp : it.price with
  | missing =>
    have h1 : pmStep m it = m := by rw [pmStep, hp]
    have h2 : obsHead it k = none := by
      rw [obsHead, show validObs it = none from by rw [validObs, hp]]
    rw [h1, h2, combMin_none_right]
  | nonNumeric =>
    have h1 : pmStep m it = m := by rw [pmStep, hp]
    have h2 : obsHead it k = none := by
      rw [obsHead, show validObs it = none from by rw [validObs, hp]]
    rw [h1, h2, combMin_none_right]
  | num v =>
    by_cases hk : pitemKey it = []
    · have h1 : pmStep m it = m := by
        rw [pmStep, hp]
        exact if_pos hk
      have hval : validObs it = none := by
        rw [validObs, hp]
        exact if_pos hk
      have h2 : obsHead it k = none := by rw [obsHead, hval]
      rw [h1, h2, combMin_none_right]
    · have h1 : pmStep m it = updateMin m (pitemKey it) v := by
        rw [pmStep, hp]
        exact if_neg hk
      have hval : validObs it = some (pitemKey it, v) := by
        rw [validObs, hp]
        exact if_neg hk
      have h2 : obsHead it k = if pitemKey it = k then some v else none := by
        rw [obsHead, hval]
      by_cases hkk : pitemKey it = k
      · rw [h1, h2, if_pos hkk, hkk, mapGet_updateMin_self]
      · rw [h1, h2, if_neg hkk,
          mapGet_updateMin_other _ _ _ _ (fun h => hkk h.symm), combMin_none_right]

theorem mapGet_foldl_pmStep : ∀ (l : List PItem) (m : List (Str × ℚ)) (k : Str),
    mapGet (l.foldl pmStep m) k = combMin (mapGet m k) (lowestObs l k)
  | [], m, k => by
    rw [List.foldl_nil, lowestObs]
    rw [show minQ? (((List.filterMap validObs []).filter
      (fun p => decide (p.1 = k))).map Prod.snd) = none from rfl]
    rw [combMin_none_right]
  | it :: l, m, k => by
    rw [List.foldl_cons, mapGet_foldl_pmStep l (pmStep m it) k, mapGet_pmStep,
      lowestObs_cons, combMin_assoc]

/-- The price map's `.get` is exactly the lowest valid observation. -/
theorem mapGet_buildPriceMap (prices : List PItem) (k : Str) :
    mapGet (buildPriceMap prices) k = lowestObs prices k := by
  rw [buildPriceMap_eq_fold, mapGet_foldl_pmStep]
  rfl

theorem updateMin_ne_nil (m : List (Str × ℚ)) (k : Str) (v : ℚ) :
    updateMin m k v ≠ [] := by
  cases hg : mapGet m k with
  | none =>
    rw [updateMin_eq_of_none hg]
    simp
  | some e =>
    by_cases hlt : v < e
    · rw [updateMin_eq_of_lt hg hlt]
      simp only [ne_eq, List.map_eq_nil_iff]
      exact mapGet_nonempty hg
    · rw [updateMin_eq_of_ge hg hlt]
      exact mapGet_nonempty hg

theorem pmStep_nil_iff (m : List (Str × ℚ)) (it : PItem) :
    pmStep m it = [] ↔ (m = [] ∧ validObs it = none) := by
  cases hp : it.price with
  | missing =>
    rw [show pmStep m it = m from by rw [pmStep, hp],
      show validObs it = none from by rw [validObs, hp]]
    simp
  | nonNumeric =>
    rw [show pmStep m it = m from by rw [pmStep, hp],
      show validObs it = none from by rw [validObs, hp]]
    simp
  | num v =>
    by_cases hk : pitemKey it = []
    · rw [show pmStep m it = m from by rw [pmStep, hp]; exact if_pos hk,
        show validObs it = none from by rw [validObs, hp]; exact if_pos hk]
      simp
    · rw [show pmStep m it = updateMin m (pitemKey it) v from by
          rw [pmStep, hp]; exact if_neg hk,
        show validObs it = some (pitemKey it, v) from by
          rw [validObs, hp]; exact if_neg hk]
      simp only [Option.some_ne_none, and_false, iff_false]
      exact updateMin_ne_nil m (pitemKey it) v

theorem foldl_pmStep_nil_iff : ∀ (l : List PItem) (m : List (Str × ℚ)),
    (l.foldl pmStep m = []) ↔ (m = [] ∧ l.filterMap validObs = [])
  | [], m => by simp
  | it :: l, m => by
    rw [List.foldl_cons, foldl_pmStep_nil_iff l (pmStep m it), pmStep_nil_iff,
      List.filterMap_cons]
    cases hv : validObs it with
    | none => simp [and_assoc]
    | some p => simp

theorem find?_congr {α : Type} (p q : α → Bool) (h : ∀ a, p a = q a) :
    ∀ l : List α, l.find? p = l.find? q
  | [] => rfl
  | a :: l => by
    cases hpa : p a with
    | true =>
      rw [List.find?_cons_of_pos _ hpa, List.find?_cons_of_pos _ ((h a).symm.trans hpa)]
    | false =>
      rw [List.find?_cons_of_neg _ (by simp [hpa]),
        List.find?_cons_of_neg _ (by simp [← h a, hpa]), find?_congr p q h l]

theorem selectScan_eq_find (pm : List (Str × ℚ)) (minP maxP : Option ℚ) :
    ∀ l : List (Str × Rec),
      selectScan pm minP maxP l =
        Option.map (fun p => (p.1, (mapGet pm p.1).getD 0, p.2))
          (l.find? (fun p => inPriceRange (mapGet pm p.1) minP maxP))
  | [] => rfl
  | (name, data) :: rest => by
    cases hg : mapGet pm name with
    | none =>
      have h1 : selectScan pm minP maxP ((name, data) :: rest) =
          selectScan pm minP maxP rest := by
        rw [selectScan, hg]
      have h2 : inPriceRange (mapGet pm (name, data).1) minP maxP = false := by
        show inPriceRange (mapGet pm name) minP maxP = false
        rw [hg, inPriceRange]
      rw [h1, List.find?_cons_of_neg _ (by simp [h2]),
        selectScan_eq_find pm minP maxP rest]
    | some price =>
      have hsel : selectScan pm minP maxP ((name, data) :: rest) =
          (if belowMin minP price then selectScan pm minP maxP rest
          else if aboveMax maxP price then selectScan pm minP maxP rest
          else some (name, price, data)) := by
        rw [selectScan, hg]
      by_cases hb1 : belowMin minP price = true
      · have hpred : inPriceRange (mapGet pm (name, data).1) minP maxP = false := by
          show inPriceRange (mapGet pm name) minP maxP = false
          rw [hg]
          cases minP with
          | none => rw [belowMin] at hb1; simp at hb1
          | some m =>
            rw [belowMin, decide_eq_true_eq] at hb1
            show (minOk (some m) price && maxOk maxP price) = false
            rw [minOk]
            simp [not_le.mpr hb1]
        rw [hsel, if_pos hb1, List.find?_cons_of_neg _ (by simp [hpred]),
          selectScan_eq_find pm minP maxP rest]
      · by_cases hb2 : aboveMax maxP price = true
        · have hpred : inPriceRange (mapGet pm (name, data).1) minP maxP = false := by
            show inPriceRange (mapGet pm name) minP maxP = false
            rw [hg]
            cases maxP with
            | none => rw [aboveMax] at hb2; simp at hb2
            | some m =>
              rw [aboveMax, decide_eq_true_eq] at hb2
              show (minOk minP price && maxOk (some m) price) = false
              rw [maxOk]
              simp [not_le.mpr hb2]
          rw [hsel, if_neg hb1, if_pos hb2, List.find?_cons_of_neg _ (by simp [hpred]),
            selectScan_eq_find pm minP maxP rest]
        · have hmin : minOk minP price = true := by
            cases minP with
            | none => rfl
            | some m =>
              rw [belowMin] at hb1
              rw [minOk, decide_eq_true_eq]
              simp only [decide_eq_true_eq] at hb1
              exact not_lt.mp hb1
          have hmax : maxOk maxP price = true := by
            cases maxP with
            | none => rfl
            | some m =>
              rw [aboveMax] at hb2
              rw [maxOk, decide_eq_true_eq]
              simp only [decide_eq_true_eq] at hb2
              exact not_lt.mp hb2
          have hpred : inPriceRange (mapGet pm (name, data).1) minP maxP = true := by
            show inPriceRange (mapGet pm name) minP maxP = true
            rw [hg]
            show (minOk minP price && maxOk maxP price) = true
            rw [hmin, hmax]
            rfl
          rw [hsel, if_neg hb1, if_neg hb2, List.find?_cons_of_pos _ (by exact hpred)]
          show some (name, price, data) = some (name, (mapGet pm name).getD 0, data)
          rw [hg]
          rfl

/-- Claim C1: `select_best_part` equals its specification — build the
name→lowest-observed-price map from the valid observations, error when no
valid observation exists, then return the first integer-ranked record in
rank-descending catalog order whose lowest observed price lies inside the
inclusive `[min_price, max_price]` window, and a not-found error when no
such record exists. -/
theorem c1_select_best (db : Db) (category benchmarkType : Str)
    (minP maxP : Option ℚ) (prices : List PItem)
    (hp : prices ≠ [])
    (hcat : pyLowerS category = "cpu".toList ∨ pyLowerS category = "gpu".toList) :
    selectBestPart db category benchmarkType minP maxP prices =
      selectBestSpec db category benchmarkType minP maxP prices := by
  clear hcat
  rw [selectBestPart, if_neg hp, selectBestSpec]
  by_cases hv : prices.filterMap validObs = []
  · rw [show buildPriceMap prices = [] from by
      rw [buildPriceMap_eq_fold]
      exact (foldl_pmStep_nil_iff prices []).mpr ⟨rfl, hv⟩]
    rw [if_pos rfl, if_pos hv]
  · have hbm : buildPriceMap prices ≠ [] := by
      rw [buildPriceMap_eq_fold]
      intro hz
      exact hv ((foldl_pmStep_nil_iff prices []).mp hz).2
    rw [if_neg hbm, if_neg hv]
    cases hsrc : targetSrc db category benchmarkType with
    | none => rfl
    | some st =>
      dsimp only []
      rw [selectScan_eq_find,
        find?_congr _ (fun p => inPriceRange (lowestObs prices p.1) minP maxP)
          (fun p => by rw [mapGet_buildPriceMap])]
      cases hf : (sortDescBy rankKeyZ (st.1.filter hasIntRank)).find?
          (fun p => inPriceRange (lowestObs prices p.1) minP maxP) with
      | none => rfl
      | some p =>
        show SRes.ok _ = SRes.ok _
        rw [show (mapGet (buildPriceMap prices) p.1).getD 0
            = (lowestObs prices p.1).getD 0 from by rw [mapGet_buildPriceMap]]

theorem c1_witness :
    selectBestPart dbDemo ("cpu".toList) ("gaming".toList) (some 60) none
        [⟨some "alpha one".toList, .num 100⟩, ⟨some "beta two".toList, .num 50⟩] =
      selectBestSpec dbDemo ("cpu".toList) ("gaming".toList) (some 60) none
        [⟨some "alpha one".toList, .num 100⟩, ⟨some "beta two".toList, .num 50⟩] :=
  c1_select_best dbDemo ("cpu".toList) ("gaming".toList) (some 60) none
    [⟨some "alpha one".toList, .num 100⟩, ⟨some "beta two".toList, .num 50⟩]
    (by decide) (Or.inl (by decide))

/-! ### Claim C2 — ordering behaviour of `compute_balance` -/

theorem processEntry_rank_none {db : Db} {bt : Str} {e : Entry} {r : BRes}
    (h : processEntry db bt e = some r) : r.rank = none := by
  rw [processEntry] at h
  repeat' split at h
  all_goals try exact Option.noConfusion h
  all_goals (rw [← Option.some.inj h]; try rfl)

theorem stripRank_of_none {r : BRes} (h : r.rank = none) : stripRank r = r := by
  cases r
  rw [stripRank]
  simp_all

theorem stripRank_update (r : BRes) (i : Nat) :
    stripRank { r with rank := some i } = stripRank r := rfl

theorem assignRanks_map_stripRank : ∀ (i : Nat) (l : List BRes),
    (assignRanks i l).map stripRank = l.map stripRank
  | _, [] => rfl
  | i, r :: t => by
    rw [show assignRanks i (r :: t)
        = { r with rank := some i } :: assignRanks (i + 1) t from rfl,
      List.map_cons, List.map_cons, stripRank_update,
      assignRanks_map_stripRank (i + 1) t]

theorem assignRanks_length : ∀ (i : Nat) (l : List BRes),
    (assignRanks i l).length = l.length
  | _, [] => rfl
  | i, r :: t => by
    rw [show assignRanks i (r :: t)
        = { r with rank := some i } :: assignRanks (i + 1) t from rfl,
      List.length_cons, List.length_cons, assignRanks_length (i + 1) t]

theorem assignRanks_mem : ∀ {i : Nat} {l : List BRes} {r : BRes},
    r ∈ assignRanks i l → ∃ j r', r' ∈ l ∧ r = { r' with rank := some j } := by
  intro i l
  induction l generalizing i with
  | nil => intro r h; exact absurd h (by simp [assignRanks])
  | cons a t ih =>
    intro r h
    rw [show assignRanks i (a :: t)
        = { a with rank := some i } :: assignRanks (i + 1) t from rfl] at h
    rcases List.mem_cons.mp h with rfl | h
    · exact ⟨i, a, by simp, rfl⟩
    · obtain ⟨j, r', hr', hr⟩ := ih h
      exact ⟨j, r', List.mem_cons_of_mem a hr', hr⟩

theorem scoredPred_update (r : BRes) (i : Nat) :
    scoredPred { r with rank := some i } = scoredPred r := rfl

theorem balKey_update (r : BRes) (i : Nat) :
    balKey { r with rank := some i } = balKey r := rfl

theorem pairwiseDescBy_assignRanks : ∀ (i : Nat) (l : List BRes),
    pairwiseDescBy balKey (assignRanks i l) = pairwiseDescBy balKey l
  | _, [] => rfl
  | _, [_] => rfl
  | i, r :: s :: t => by
    rw [show assignRanks i (r :: s :: t)
        = { r with rank := some i } :: assignRanks (i + 1) (s :: t) from rfl,
      show assignRanks (i + 1) (s :: t)
        = { s with rank := some (i + 1) } :: assignRanks (i + 2) t from rfl,
      pairwiseDescBy_cons_cons, pairwiseDescBy_cons_cons, balKey_update, balKey_update]
    rw [show ({ s with rank := some (i + 1) } :: assignRanks (i + 2) t)
        = assignRanks (i + 1) (s :: t) from rfl,
      pairwiseDescBy_assignRanks (i + 1) (s :: t)]

theorem assignRanks_ranks : ∀ (i : Nat) (l : List BRes),
    (assignRanks i l).map (fun r => r.rank)
      = (List.range l.length).map (fun j => some (i + j))
  | _, [] => rfl
  | i, r :: t => by
    rw [show assignRanks i (r :: t)
        = { r with rank := some i } :: assignRanks (i + 1) t from rfl,
      List.map_cons, assignRanks_ranks (i + 1) t, List.length_cons,
      List.range_succ_eq_map, List.map_cons, List.map_map]
    congr 1
    apply List.map_congr_left
    intro j _
    show some (i + 1 + j) = some (i + (j + 1))
    rw [Nat.add_assoc, Nat.add_comm 1 j]

theorem assignRanks_filter_stripRank (p : BRes → Bool)
    (hp : ∀ (r : BRes) (i : Nat), p { r with rank := some i } = p r) :
    ∀ (i : Nat) (l : List BRes),
      ((assignRanks i l).filter p).map stripRank = (l.filter p).map stripRank
  | _, [] => rfl
  | i, r :: t => by
    rw [show assignRanks i (r :: t)
        = { r with rank := some i } :: assignRanks (i + 1) t from rfl]
    by_cases hpr : p r = true
    · rw [List.filter_cons_of_pos (by rw [hp r i]; exact hpr),
        List.filter_cons_of_pos hpr, List.map_cons, List.map_cons, stripRank_update,
        assignRanks_filter_stripRank p hp (i + 1) t]
    · rw [List.filter_cons_of_neg (by rw [hp r i]; simpa using hpr),
        List.filter_cons_of_neg (by simpa using hpr),
        assignRanks_filter_stripRank p hp (i + 1) t]

/-- Claim C2: the evaluated list of `compute_balance` is the scored block
followed by the unscored block; the scored block is a permutation of the
scored results sorted by balance score descending, stable (each balance
score class keeps its input order), with dense output ranks 1..N attached;
the unscored block is the error-tagged results in input order, with no
output rank. -/
theorem c2_compute_balance_ordering (db : Db) (parts : List Entry)
    (benchmarkType : Str) (hp : parts ≠ []) :
    rankingSpec db parts benchmarkType := by
  rw [rankingSpec]
  have hcb : computeBalance db parts benchmarkType = .ok
      { valid_count := ((parts.filterMap (processEntry db benchmarkType)).filter
            (fun r => r.balance_score.isSome)).length,
        invalid_count := ((parts.filterMap (processEntry db benchmarkType)).filter
            (fun r => r.balance_score.isNone)).length,
        benchmark_type := benchmarkType,
        evaluated := assignRanks 1 (sortDescBy balKey
            ((parts.filterMap (processEntry db benchmarkType)).filter
              (fun r => r.balance_score.isSome)))
          ++ (parts.filterMap (processEntry db benchmarkType)).filter
              (fun r => r.balance_score.isNone) } := by
    rw [computeBalance, if_neg hp]
  refine ⟨_, hcb, ?_⟩
  dsimp only []
  set processed := parts.filterMap (processEntry db benchmarkType) with hproc
  set valid := processed.filter (fun r => r.balance_score.isSome) with hvalid
  set invalid := processed.filter (fun r => r.balance_score.isNone) with hinvalid
  set sortedV := sortDescBy balKey valid with hsortedV
  set ranked := assignRanks 1 sortedV with hranked
  have hF0 : ∀ r ∈ processed, r.rank = none := by
    intro r hr
    obtain ⟨e, _, he⟩ := List.mem_filterMap.mp hr
    exact processEntry_rank_none he
  have hpermV : sortedV.Perm valid := sortDescBy_perm balKey valid
  have hranked_scored : ∀ r ∈ ranked, scoredPred r = true := by
    intro r hr
    obtain ⟨j, r', hr', rfl⟩ := assignRanks_mem hr
    rw [scoredPred_update]
    exact List.of_mem_filter (hpermV.subset hr')
  have hinvalid_unscored : ∀ r ∈ invalid, scoredPred r = false := by
    intro r hr
    rw [hinvalid] at hr
    have hmemf := List.of_mem_filter hr
    have hnone : r.balance_score = none := Option.isNone_iff_eq_none.mp hmemf
    rw [scoredPred, hnone]
    rfl
  have hG1 : (ranked ++ invalid).filter scoredPred = ranked := by
    rw [List.filter_append, List.filter_eq_self.mpr hranked_scored,
      List.filter_eq_nil_iff.mpr (fun a ha => by simp [hinvalid_unscored a ha]),
      List.append_nil]
  have hG2 : (ranked ++ invalid).filter (fun r => !scoredPred r) = invalid := by
    rw [List.filter_append,
      List.filter_eq_nil_iff.mpr (fun a ha => by simp [hranked_scored a ha]),
      List.filter_eq_self.mpr (fun a ha => by simp [hinvalid_unscored a ha]),
      List.nil_append]
  have hvalid_map : valid.map stripRank = valid := by
    rw [List.map_congr_left (fun r hr =>
      stripRank_of_none (hF0 r (List.mem_of_mem_filter hr))), List.map_id']
  have hvalid_alt : processed.filter scoredPred = valid := by
    rw [hvalid]
    exact List.filter_congr (fun a _ => rfl)
  refine ⟨?_, ?_, ?_, ?_, ?_, ?_, ?_⟩
  · rw [hG1, hG2]
  · rw [hG1, assignRanks_map_stripRank, hvalid_alt]
    calc (sortedV.map stripRank).Perm (valid.map stripRank) := hpermV.map stripRank
      _ = valid := hvalid_map
  · rw [hG1, hranked, pairwiseDescBy_assignRanks]
    exact pairwiseDescBy_sortDescBy balKey valid
  · intro q
    have hqk : ∀ a : BRes, (fun r => decide (r.balance_score = some q)) a = true →
        balKey a = q := by
      intro a ha
      simp only [decide_eq_true_eq] at ha
      rw [balKey, ha]
      rfl
    rw [hG1, hranked, assignRanks_filter_stripRank
        (fun r => decide (r.balance_score = some q)) (fun r i => rfl), hsortedV,
      filter_sortDescBy_of_key balKey _ q hqk]
    have hsub : (valid.filter (fun r => decide (r.balance_score = some q))).map stripRank
        = valid.filter (fun r => decide (r.balance_score = some q)) := by
      rw [List.map_congr_left (fun r hr => stripRank_of_none
        (hF0 r (List.mem_of_mem_filter (List.mem_of_mem_filter hr)))), List.map_id']
    rw [hsub, hvalid, List.filter_filter]
    apply List.filter_congr
    intro a _
    cases hq : decide (a.balance_score = some q) with
    | true =>
      simp only [decide_eq_true_eq] at hq
      simp [hq]
    | false => simp
  · rw [hG1, hranked, assignRanks_ranks, assignRanks_length]
    apply List.map_congr_left
    intro j _
    rw [Nat.add_comm]
  · rw [hG2, hinvalid]
    apply List.filter_congr
    intro a _
    rw [scoredPred]
    exact (Option.bnot_isSome a.balance_score).symm
  · intro r hr
    rw [hG2] at hr
    exact hF0 r (List.mem_of_mem_filter hr)

theorem c2_witness :
    rankingSpec dbDemo
      [⟨some "alpha one".toList, .num 100⟩, ⟨some "beta two".toList, .num 50⟩]
      ("gaming".toList) :=
  c2_compute_balance_ordering dbDemo
    [⟨some "alpha one".toList, .num 100⟩, ⟨some "beta two".toList, .num 50⟩]
    ("gaming".toList) (by decide)

/-! ### Claims C6 and C7 — per-entry error handling of `compute_balance` -/

theorem assignRanks_mem_of : ∀ (i : Nat) (l : List BRes) (r : BRes), r ∈ l →
    ∃ j, { r with rank := some j } ∈ assignRanks i l := by
  intro i l
  induction l generalizing i with
  | nil => intro r h; exact absurd h (by simp)
  | cons a t ih =>
    intro r h
    rcases List.mem_cons.mp h with rfl | h
    · exact ⟨i, by
        rw [show assignRanks i (r :: t)
          = { r with rank := some i } :: assignRanks (i + 1) t from rfl]
        simp⟩
    · obtain ⟨j, hj⟩ := ih (i + 1) r h
      exact ⟨j, by
        rw [show assignRanks i (a :: t)
          = { a with rank := some i } :: assignRanks (i + 1) t from rfl]
        exact List.mem_cons_of_mem _ hj⟩

theorem computeBalance_ok (db : Db) (parts : List Entry) (bt : Str)
    (hp : parts ≠ []) :
    computeBalance db parts bt = .ok
      { valid_count := ((parts.filterMap (processEntry db bt)).filter
            (fun r => r.balance_score.isSome)).length,
        invalid_count := ((parts.filterMap (processEntry db bt)).filter
            (fun r => r.balance_score.isNone)).length,
        benchmark_type := bt,
        evaluated := assignRanks 1 (sortDescBy balKey
            ((parts.filterMap (processEntry db bt)).filter
              (fun r => r.balance_score.isSome)))
          ++ (parts.filterMap (processEntry db bt)).filter
              (fun r => r.balance_score.isNone) } := by
  rw [computeBalance, if_neg hp]

/-- Claim C6 (counterexample): an entry with a missing part name *and* a
missing price is dropped entirely — the claim requires every entry with an
invalid price to be kept, yet the evaluated list is empty. -/
theorem c6_counterexample :
    computeBalance dbDemo [⟨none, PriceInput.missing⟩] ("gaming".toList) =
      .ok { valid_count := 0, invalid_count := 0,
            benchmark_type := "gaming".toList, evaluated := [] } := by
  decide

/-- Claim C6 (amended): every input entry with a *non-empty part name*
whose price is missing, non-numeric, or ≤ 0 is kept in the output as an
error-tagged result with a null balance score and no output rank,
regardless of catalog contents; entries without a part name are dropped
before the price check. -/
theorem c6_invalid_price_kept (db : Db) (parts : List Entry) (bt : Str)
    (e : Entry) (name : Str) (he : e ∈ parts)
    (hname : truthyStr e.part = some name)
    (hprice : priceOkB e.price = false) :
    ∃ o : CBOk, computeBalance db parts bt = .ok o ∧
      invalidPriceRes name e.price ∈ o.evaluated ∧
      (invalidPriceRes name e.price).balance_score = none ∧
      (invalidPriceRes name e.price).rank = none ∧
      (invalidPriceRes name e.price).error = some (.invalidPrice e.price) := by
  have hp : parts ≠ [] := by
    intro hnil
    rw [hnil] at he
    exact absurd he (List.not_mem_nil e)
  have hpe : processEntry db bt e = some (invalidPriceRes name e.price) := by
    simp only [processEntry, hname]
    cases hpr : e.price with
    | missing => rfl
    | nonNumeric => rfl
    | num p =>
      rw [hpr, priceOkB] at hprice
      simp only [decide_eq_false_iff_not, not_not] at hprice
      simp only [if_pos hprice]
  refine ⟨_, computeBalance_ok db parts bt hp, ?_, rfl, rfl, rfl⟩
  have hmem : invalidPriceRes name e.price ∈ parts.filterMap (processEntry db bt) :=
    List.mem_filterMap.mpr ⟨e, he, hpe⟩
  apply List.mem_append_right
  apply List.mem_filter.mpr
  exact ⟨hmem, rfl⟩

theorem c6_witness :
    ∃ o : CBOk,
      computeBalance dbDemo [⟨some "alpha one".toList, PriceInput.num 0⟩]
        ("gaming".toList) = .ok o ∧
      invalidPriceRes ("alpha one".toList) (PriceInput.num 0) ∈ o.evaluated ∧
      (invalidPriceRes ("alpha one".toList) (PriceInput.num 0)).balance_score = none ∧
      (invalidPriceRes ("alpha one".toList) (PriceInput.num 0)).rank = none ∧
      (invalidPriceRes ("alpha one".toList) (PriceInput.num 0)).error
        = some (.invalidPrice (PriceInput.num 0)) :=
  c6_invalid_price_kept dbDemo [⟨some "alpha one".toList, PriceInput.num 0⟩]
    ("gaming".toList) ⟨some "alpha one".toList, PriceInput.num 0⟩
    ("alpha one".toList) (by decide) (by decide) (by decide)

/-- Claim C7 (counterexample): an entry with an empty part name is silently
dropped (`if not part_name: continue`), so it does not appear in the
evaluated list at all — `compute_balance` does drop input items. -/
theorem c7_counterexample :
    computeBalance dbDemo [⟨some [], PriceInput.num 100⟩] ("gaming".toList) =
      .ok { valid_count := 0, invalid_count := 0,
            benchmark_type := "gaming".toList, evaluated := [] } := by
  decide

theorem processEntry_part (db : Db) (bt : Str) (e : Entry) (name : Str)
    (hname : truthyStr e.part = some name) :
    ∃ r0, processEntry db bt e = some r0 ∧ r0.part = name := by
  simp only [processEntry, hname]
  cases hpr : e.price with
  | missing => exact ⟨_, rfl, rfl⟩
  | nonNumeric => exact ⟨_, rfl, rfl⟩
  | num p =>
    by_cases h0 : p ≤ 0
    · simp only [if_pos h0]
      exact ⟨_, rfl, rfl⟩
    · simp only [if_neg h0]
      cases hlb : lookupBenchmark db name [] bt with
      | err m =>
        simp only [hlb]
        exact ⟨_, rfl, rfl⟩
      | ok r =>
        simp only [hlb]
        exact ⟨_, rfl, rfl⟩

/-- Claim C7 (amended): `compute_balance` keeps every input entry whose
part name is present and non-empty: some result record with that part name
appears in the evaluated list (scored or error-tagged).  Entries with a
missing or empty part name are silently dropped. -/
theorem c7_named_entries_kept (db : Db) (parts : List Entry) (bt : Str)
    (e : Entry) (name : Str) (he : e ∈ parts)
    (hname : truthyStr e.part = some name) :
    ∃ o : CBOk, computeBalance db parts bt = .ok o ∧
      ∃ r ∈ o.evaluated, r.part = name := by
  have hp : parts ≠ [] := by
    intro hnil
    rw [hnil] at he
    exact absurd he (List.not_mem_nil e)
  obtain ⟨r0, hpe, hpart⟩ := processEntry_part db bt e name hname
  refine ⟨_, computeBalance_ok db parts bt hp, ?_⟩
  have hmem : r0 ∈ parts.filterMap (processEntry db bt) :=
    List.mem_filterMap.mpr ⟨e, he, hpe⟩
  cases hs : r0.balance_score.isSome with
  | false =>
    refine ⟨r0, ?_, hpart⟩
    apply List.mem_append_right
    apply List.mem_filter.mpr
    refine ⟨hmem, ?_⟩
    rw [← Option.bnot_isSome, hs]
    rfl
  | true =>
    have hv : r0 ∈ (parts.filterMap (processEntry db bt)).filter
        (fun r => r.balance_score.isSome) := List.mem_filter.mpr ⟨hmem, hs⟩
    have hsv : r0 ∈ sortDescBy balKey ((parts.filterMap (processEntry db bt)).filter
        (fun r => r.balance_score.isSome)) :=
      ((sortDescBy_perm balKey _).mem_iff).mpr hv
    obtain ⟨j, hj⟩ := assignRanks_mem_of 1 _ r0 hsv
    refine ⟨{ r0 with rank := some j }, List.mem_append_left _ hj, hpart⟩

theorem c7_witness :
    ∃ o : CBOk,
      computeBalance dbDemo [⟨some "beta two".toList, PriceInput.num 50⟩]
        ("gaming".toList) = .ok o ∧
      ∃ r ∈ o.evaluated, r.part = "beta two".toList :=
  c7_named_entries_kept dbDemo [⟨some "beta two".toList, PriceInput.num 50⟩]
    ("gaming".toList) ⟨some "beta two".toList, PriceInput.num 50⟩
    ("beta two".toList) (by decide) (by decide)

/-! ### Claim C8 — idempotence of `load_benchmarks` -/

theorem loadBenchmarks_of_loaded (env : LoadEnv) (st : Db) (h : st.loaded = true) :
    loadBenchmarks env st = { state := st, raised := false, fileReads := 0 } := by
  rw [loadBenchmarks, if_pos h]

/-- Claim C8 (counterexample): a fatal parse error does *not* leave the
loader marked "attempted": the first call raises with `_loaded` still
false, and the second call re-reads the malformed file instead of being a
no-op. -/
theorem c8_counterexample :
    (loadBenchmarks envBad db0).raised = true ∧
      (loadBenchmarks envBad db0).state.loaded = false ∧
      (loadBenchmarks envBad (loadBenchmarks envBad db0).state).fileReads = 1 := by
  exact ⟨by decide, by decide, by decide⟩

/-- Claim C8 (amended): `load_benchmarks` is idempotent across the success
and not-found outcomes: a first call that returns without raising marks the
loader loaded, and every subsequent call is a no-op that changes nothing
and reads no files.  A fatal parse/I/O error, however, propagates *without*
marking the loader, so the next call retries the whole load. -/
theorem c8_load_idempotent (env env2 : LoadEnv) (st : Db)
    (h : (loadBenchmarks env st).raised = false) :
    (loadBenchmarks env st).state.loaded = true ∧
      loadBenchmarks env2 (loadBenchmarks env st).state =
        { state := (loadBenchmarks env st).state, raised := false, fileReads := 0 } := by
  have key : (loadBenchmarks env st).state.loaded = true := by
    by_cases hl : st.loaded = true
    · rw [loadBenchmarks_of_loaded env st hl]
      exact hl
    · cases hres : env.resolved with
      | none => rw [loadBenchmarks, if_neg hl, hres]
      | some dir =>
        have hred : loadBenchmarks env st = loadResolved st dir.cpu1 dir.cpu2 dir.gpu := by
          rw [loadBenchmarks, if_neg hl, hres]
        rw [hred] at h ⊢
        rw [loadResolved] at h ⊢
        by_cases h1 : dir.cpu1 = some .parseError
        · rw [if_pos h1] at h
          simp at h
        · rw [if_neg h1] at h ⊢
          by_cases h2 : dir.cpu2 = some .parseError
          · rw [if_pos h2] at h
            simp at h
          · rw [if_neg h2] at h ⊢
            by_cases h3 : dir.gpu = some .parseError
            · rw [if_pos h3] at h
              simp at h
            · rw [if_neg h3]
  exact ⟨key, loadBenchmarks_of_loaded env2 _ key⟩

theorem c8_witness :
    (loadBenchmarks envGood db0).state.loaded = true ∧
      loadBenchmarks envGood (loadBenchmarks envGood db0).state =
        { state := (loadBenchmarks envGood db0).state, raised := false,
          fileReads := 0 } :=
  c8_load_idempotent envGood envGood db0 (by decide)
